import Mathlib

/-!
# Verification of the piccolo master control plane (src/src/master.cc)

This file gives a shallow embedding, in Lean 4, of the master-side data
model and operations of the piccolo distributed table framework, translated
from `src/src/master.cc`, together with theorems settling the frozen claims
about the natural-language specification.

Modelling conventions:
* C++ `double` timestamps and cost estimates are modelled as `ℚ`.
* `std::map<Taskid, TaskState*>` is modelled as a list of `TaskState`
  records kept sorted and keyed by `TaskState.id` (keys are unique);
  `std::set<Taskid>` is modelled as a sorted duplicate-free `List Taskid`.
* Pointer mutation through an aliased `TaskState*` is modelled by updating
  the (unique) entry with the matching id in place.
* Fatal `CHECK(...)` aborts are modelled with `Option`/`Except`.
* The process-wide `dead_workers` set and the gflags are carried in an
  explicit context record `Ctx`.
-/

namespace Piccolo

/-- `struct Taskid` (master.cc:21-32): identity of a table shard. -/
structure Taskid where
  table : Int
  shard : Int
deriving DecidableEq, Repr

/-- `Taskid::operator<` (master.cc:29-31), as a boolean. -/
def Taskid.ltb (a b : Taskid) : Bool :=
  decide (a.table < b.table) || (a.table == b.table && decide (a.shard < b.shard))

/-- `TaskState::Status` (master.cc:35-37). -/
inductive Status where
  | PENDING
  | ACTIVE
  | FINISHED
deriving DecidableEq, Repr

/-- `struct TaskState` (master.cc:34-58). -/
structure TaskState where
  id : Taskid
  status : Status
  size : Int
  stolen : Bool
deriving DecidableEq, Repr

/-- The `TaskState` constructor (master.cc:39-41): status `PENDING`, not stolen. -/
def TaskState.fresh (id : Taskid) (size : Int) : TaskState :=
  ⟨id, Status.PENDING, size, false⟩

/-- `TaskState::WeightCompare` (master.cc:47-52), used as the "less-than"
comparator of `std::max_element`. -/
def TaskState.WeightCompare (a b : TaskState) : Bool :=
  if a.stolen && !b.stolen then true else decide (a.size < b.size)

/-- `std::max_element(first, last, comp)` on a nonempty range `m :: rest`:
the running best `m` is replaced by the candidate `x` exactly when
`comp m x` holds. -/
def maxElem (comp : α → α → Bool) : α → List α → α
  | m, [] => m
  | m, x :: xs => maxElem comp (if comp m x then x else m) xs

/-- Index (into the full range) of the element `std::max_element` returns.
`m` is the current best, `bi` its index, `i` the index of the head of the
remaining range. -/
def maxElemIdxAux (comp : α → α → Bool) : α → Nat → Nat → List α → Nat
  | _, bi, _, [] => bi
  | m, bi, i, x :: xs =>
    if comp m x then maxElemIdxAux comp x i (i + 1) xs
    else maxElemIdxAux comp m bi (i + 1) xs

/-- Index of `std::max_element(l.begin(), l.end(), comp)`; `0` on `[]`. -/
def maxElemIdx (comp : α → α → Bool) : List α → Nat
  | [] => 0
  | x :: xs => maxElemIdxAux comp x 0 1 xs

/-! ## Ordered-set and ordered-map primitives -/

/-- `std::set<Taskid>::insert`: sorted insertion, no duplicates. -/
def setInsert : List Taskid → Taskid → List Taskid
  | [], x => [x]
  | y :: ys, x =>
    if Taskid.ltb x y then x :: y :: ys
    else if x = y then y :: ys
    else y :: setInsert ys x

/-- `shards.erase(shards.find(t))`: removal of `x` from a duplicate-free
sorted set (a no-op when `x` is absent). -/
def setErase (l : List Taskid) (x : Taskid) : List Taskid :=
  l.filter (fun y => decide (y ≠ x))

/-- `std::map<Taskid, TaskState*>::operator[] = s` (`work[s->id] = s`,
master.cc:133): sorted keyed insertion, replacing an entry with the same id. -/
def mapInsert : List TaskState → TaskState → List TaskState
  | [], s => [s]
  | t :: ts, s =>
    if Taskid.ltb s.id t.id then s :: t :: ts
    else if s.id = t.id then s :: ts
    else t :: mapInsert ts s

/-- `work.erase(work.find(id))` (master.cc:137): removal of the entry
keyed by `tid` (keys are unique in a `std::map`). -/
def mapErase (l : List TaskState) (tid : Taskid) : List TaskState :=
  l.filter (fun t => decide (t.id ≠ tid))

/-- In-place pointer mutation `t->status = ACTIVE` (master.cc:203) on the
work map: set the status of the (unique) entry keyed by `tid`. -/
def markActiveFirst : List TaskState → Taskid → List TaskState
  | [], _ => []
  | t :: ts, tid =>
    if t.id = tid then { t with status := Status.ACTIVE } :: ts
    else t :: markActiveFirst ts tid

/-- In-place pointer mutation `t->status = FINISHED` (master.cc:148). -/
def markFinishedFirst : List TaskState → Taskid → List TaskState
  | [], _ => []
  | t :: ts, tid =>
    if t.id = tid then { t with status := Status.FINISHED } :: ts
    else t :: markFinishedFirst ts tid

/-- In-place pointer mutation `task->stolen = true` (master.cc:368). -/
def setStolenFirst : List TaskState → Taskid → List TaskState
  | [], _ => []
  | t :: ts, tid =>
    if t.id = tid then { t with stolen := true } :: ts
    else t :: setStolenFirst ts tid

/-! ## Worker state -/

/-- `struct WorkerState` (master.cc:62-208). Timing fields are `ℚ` seconds. -/
structure WorkerState where
  id : Int
  work : List TaskState
  shards : List Taskid
  lastPingTime : ℚ
  lastTaskStart : ℚ
  totalRuntime : ℚ
  checkpointing : Bool
deriving DecidableEq, Repr

/-- Default used only to totalize list indexing; every indexed access in the
theorems is guarded by a bound. -/
def dummyWorker : WorkerState := ⟨0, [], [], 0, 0, 0, false⟩

/-- Global context: the registered tables as `(id, numShards)` pairs in
`std::map` key order, the `FLAGS_work_stealing` gflag, and the process-wide
`dead_workers` set (master.cc:14,19). -/
structure Ctx where
  tables : List (Int × Int)
  work_stealing : Bool
  dead : List Int
deriving DecidableEq, Repr

namespace WorkerState

/-- `WorkerState::alive` (master.cc:91-93). -/
def alive (dead : List Int) (w : WorkerState) : Bool :=
  !(dead.contains w.id)

/-- `WorkerState::serves` (master.cc:128-130). -/
def serves (w : WorkerState) (tid : Taskid) : Bool :=
  w.shards.contains tid

/-- The `pending()` vector of the `COUNT_TASKS` macro (master.cc:151-174):
work-map entries with status `PENDING`, in map order. -/
def pending (w : WorkerState) : List TaskState :=
  w.work.filter (fun t => t.status == Status.PENDING)

/-- `num_pending()` from the `COUNT_TASKS` macro. -/
def num_pending (w : WorkerState) : Nat :=
  (w.pending).length

/-- `num_active()` from the `COUNT_TASKS` macro. -/
def num_active (w : WorkerState) : Nat :=
  (w.work.filter (fun t => t.status == Status.ACTIVE)).length

/-- `num_finished()` from the `COUNT_TASKS` macro. -/
def num_finished (w : WorkerState) : Nat :=
  (w.work.filter (fun t => t.status == Status.FINISHED)).length

/-- `WorkerState::idle_time` (master.cc:103-111); `tNow` stands for `Now()`. -/
def idle_time (w : WorkerState) (tNow : ℚ) : ℚ :=
  if w.num_finished ≠ w.work.length then 0 else tNow - w.lastPingTime

/-- `WorkerState::assign_shard` (master.cc:113-126): for every registered
table `(i, n)` with `shard < n`, insert or erase `Taskid(i, shard)`. -/
def assign_shard (tables : List (Int × Int)) (w : WorkerState) (shard : Int)
    (shouldService : Bool) : WorkerState :=
  { w with shards := tables.foldl (fun s p =>
      if shard < p.2 then
        (if shouldService then setInsert s ⟨p.1, shard⟩ else setErase s ⟨p.1, shard⟩)
      else s) w.shards }

/-- `WorkerState::assign_task` (master.cc:132-134). -/
def assign_task (w : WorkerState) (s : TaskState) : WorkerState :=
  { w with work := mapInsert w.work s }

/-- `WorkerState::remove_task` (master.cc:136-138). -/
def remove_task (w : WorkerState) (tid : Taskid) : WorkerState :=
  { w with work := mapErase w.work tid }

/-- `WorkerState::clear_tasks` (master.cc:140-142). -/
def clear_tasks (w : WorkerState) : WorkerState :=
  { w with work := [] }

/-- `WorkerState::set_finished` (master.cc:144-149); `none` models a failed
`CHECK` (task absent, or not `ACTIVE`). -/
def set_finished (w : WorkerState) (tid : Taskid) : Option WorkerState :=
  match w.work.find? (fun t => t.id == tid) with
  | none => none
  | some t =>
    if t.status = Status.ACTIVE then
      some { w with work := markFinishedFirst w.work tid }
    else none

/-- `WorkerState::PendingCompare` (master.cc:86-89). -/
def PendingCompare (a b : WorkerState) : Bool :=
  decide (a.num_pending < b.num_pending)

/-- The `max_element` selection over the pending vector shared by
`WorkerState::get_next` (master.cc:195-196) and `Master::steal_work`
(master.cc:339-340). -/
def best_pending (w : WorkerState) : Option TaskState :=
  match w.pending with
  | [] => none
  | p :: ps => some (maxElem TaskState.WeightCompare p ps)

/-- `WorkerState::get_next` (master.cc:188-207): pick the best pending task,
mark it `ACTIVE`, record `last_task_start`; the returned `Taskid` stands for
the shard field of the `KernelRequest` message. -/
def get_next (w : WorkerState) (tNow : ℚ) : Option (WorkerState × Taskid) :=
  match w.best_pending with
  | none => none
  | some best =>
    some ({ w with work := markActiveFirst w.work best.id, lastTaskStart := tNow },
      best.id)

end WorkerState

/-! ## Positional updates of the workers vector -/

/-- In-place update of `workers_[n]`; a no-op when out of range (every call
site passes an in-range index). -/
def updateAt : Nat → (α → α) → List α → List α
  | _, _, [] => []
  | 0, f, x :: xs => f x :: xs
  | Nat.succ n, f, x :: xs => x :: updateAt n f xs

/-- The body of `num_active()` on a raw work map. -/
def countActive (l : List TaskState) : Nat :=
  (l.filter (fun t => t.status == Status.ACTIVE)).length

/-- Whether some registered table with id `tb` has a shard numbered `s`
(`shard < i->second->numShards` in master.cc:117). -/
def tableHasShard (tables : List (Int × Int)) (tb s : Int) : Bool :=
  tables.any (fun p => p.1 == tb && decide (s < p.2))

/-- The `average_size` computation of `Master::steal_work`
(master.cc:345-350): a loop adds `1` once per shard of `r.table`, then
divides by `r.table->numShards`. -/
def average_size (numShards : Int) : ℚ :=
  ((List.range numShards.toNat).foldl (fun a _ => a + 1) 0) / (numShards : ℚ)

/-- `move_cost` (master.cc:352-354). -/
def move_cost (taskSize : Int) (avgCT avgSize : ℚ) : ℚ :=
  max 1 (2 * (taskSize : ℚ) * avgCT / avgSize)

/-- `eta` (master.cc:355-359). -/
def eta (pendingTasks : List TaskState) (avgCT avgSize : ℚ) : ℚ :=
  pendingTasks.foldl (fun acc p => acc + max 1 ((p.size : ℚ) * avgCT / avgSize)) 0

/-- The migration block of `Master::steal_work` (master.cc:367-377), acting
on the workers vector at positions `srcIdx` (the victim chosen at
master.cc:331) and `idle` (the `idle_worker` argument). When the two
indices coincide the sequential updates mirror the aliased mutations of
the source. -/
def stealApply (tables : List (Int × Int)) (ws : List WorkerState)
    (srcIdx idle : Nat) (task : TaskState) : List WorkerState :=
  -- task->stolen = true (the TaskState lives in src's work map)
  let ws1 := updateAt srcIdx
    (fun w => { w with work := setStolenFirst w.work task.id }) ws
  -- dst.assign_shard(tid.shard, true)
  let ws2 := updateAt idle (fun w => w.assign_shard tables task.id.shard true) ws1
  -- src.assign_shard(tid.shard, false)
  let ws3 := updateAt srcIdx (fun w => w.assign_shard tables task.id.shard false) ws2
  -- src.remove_task(task)
  let ws4 := updateAt srcIdx (fun w => w.remove_task task.id) ws3
  -- dst.assign_task(task)
  updateAt idle (fun w => w.assign_task { task with stolen := true }) ws4

/-- `Master::steal_work` (master.cc:318-378). `numShards` stands for
`r.table->numShards`, `idle` for the `idle_worker` argument, `avgCT` for
`avg_completion_time`. The result pairs the C++ return value with the
workers vector after the call. -/
def steal_work (c : Ctx) (numShards : Int) (ws : List WorkerState)
    (idle : Nat) (avgCT : ℚ) : Bool × List WorkerState :=
  if !c.work_stealing then (false, ws)
  -- WorkerState &dst = *workers_[idle_worker]; every call site passes an
  -- in-range index, so the default of `getD` is never consulted
  else if !(WorkerState.alive c.dead (ws.getD idle dummyWorker)) then (false, ws)
  else
    -- src = the worker maximizing PendingCompare (master.cc:331);
    -- its pending() vector is empty iff src.num_pending() == 0 (master.cc:333)
    match (ws.getD (maxElemIdx WorkerState.PendingCompare ws) dummyWorker).pending with
    | [] => (false, ws)
    | p :: ps =>
      -- task = the WeightCompare max_element of the pending vector (master.cc:339)
      if (maxElem TaskState.WeightCompare p ps).stolen then (false, ws)
      else if eta (p :: ps) avgCT (average_size numShards) ≤
          move_cost (maxElem TaskState.WeightCompare p ps).size avgCT
            (average_size numShards) then (false, ws)
      else (true, stealApply c.tables ws (maxElemIdx WorkerState.PendingCompare ws)
        idle (maxElem TaskState.WeightCompare p ps))

/-- Modelled from the spec: the ranking the spec attributes to
`WeightCompare` — "stolen tasks outrank non-stolen; otherwise larger `size`
wins" — read as "`a` outranks `b`", for comparison with the selection the
source actually makes through `std::max_element`. -/
def specOutranks (a b : TaskState) : Bool :=
  (a.stolen && !b.stolen) || (a.stolen == b.stolen && decide (b.size < a.size))

/-- A stolen pending task of size 5. -/
def tStolenC3 : TaskState := ⟨⟨0, 0⟩, Status.PENDING, 5, true⟩

/-- A non-stolen pending task of size 1. -/
def tPlainC3 : TaskState := ⟨⟨0, 1⟩, Status.PENDING, 1, false⟩

/-- A worker whose pending list holds the stolen task first. -/
def wC3 : WorkerState := ⟨0, [tStolenC3, tPlainC3], [], 0, 0, 0, false⟩

/-- One flush round's quiescence flag (master.cc:557-582): `quiescent` is
initialized to `true` and cleared when any `FLUSH_RESPONSE` reports
`updatesdone() > 0`; `responses` lists the per-worker `updatesdone` values. -/
def flushRoundQuiescent (responses : List Nat) : Bool :=
  responses.all (fun u => u == 0)

/-- The loop condition of the `do { ... } while (1);` at master.cc:556-583.
The computed `quiescent` flag is taken as argument but — exactly as in the
source — the condition is the constant `1`. -/
def flushLoopCond (_quiescent : Bool) : Bool :=
  true

/-- Fuel-indexed execution of the flush phase (master.cc:553-587):
round `k` receives the per-worker `updatesdone` values `responses k`;
the result is `true` iff control reaches the `MTYPE_WORKER_APPLY`
broadcast at master.cc:586 within `fuel` rounds. -/
def flushReachesApply : Nat → (Nat → List Nat) → Bool
  | 0, _ => false
  | Nat.succ n, responses =>
    if flushLoopCond (flushRoundQuiescent (responses 0)) then
      flushReachesApply n (fun k => responses (k + 1))
    else true

/-! ## The post-reap steal block of `Master::barrier` (claim C2) -/

/-- The per-worker stealing precondition of the block at master.cc:531-532:
`shard_calls > 10`, average shard completion time above `0.2` s, and the
worker idle for more than `0.5` s. -/
def stealPrecondition (shardCalls : Nat) (avgCT : ℚ) (tNow : ℚ)
    (w : WorkerState) : Bool :=
  decide (10 < shardCalls) && decide ((1 : ℚ)/5 < avgCT) &&
    decide ((1 : ℚ)/2 < w.idle_time tNow)

/-- Ids of the workers for which `Master::steal_work` is invoked by the
post-reap block of `Master::barrier` (master.cc:519-544). `lastWorkCheck`
is the `Now()` sample taken at master.cc:519, `tNow` the later `Now()`
sample of the comparison at master.cc:522. -/
def barrierStealInvocations (lastWorkCheck tNow : ℚ) (shardCalls : Nat)
    (avgCT : ℚ) (ws : List WorkerState) : List Int :=
  if lastWorkCheck - tNow > 1/10 then
    (ws.filter (stealPrecondition shardCalls avgCT tNow)).map (fun w => w.id)
  else []

/-! ## Theorems for claims C1 and C2 -/

/-- A worker satisfying all the per-worker stealing preconditions of
master.cc:531-532 (all its tasks finished, idle for 1 s). -/
def wIdleC2 : WorkerState :=
  ⟨0, [⟨⟨0, 0⟩, Status.FINISHED, 1, false⟩], [⟨0, 0⟩], 0, 0, 0, false⟩


/-! ## `Master::worker_for_shard` and `Master::assign_worker` -/

/-- `Master::worker_for_shard` (master.cc:261-269): the linear scan over
`workers_` returning the first worker serving `(table, shard)`; the
returned value is the worker's index (`NULL` becomes `none`). -/
def worker_for_shard : List WorkerState → Int → Int → Option Nat
  | [], _, _ => none
  | w :: rest, table, shard =>
    if w.serves ⟨table, shard⟩ then some 0
    else (worker_for_shard rest table shard).map Nat.succ

/-- The linear scan of master.cc:281-287: `best` carries the index and
`|shards|` of the best candidate so far, `i` the index of the head of the
remaining workers; an alive worker replaces the candidate exactly when it
is the first alive one or has strictly fewer shards. -/
def bestAux (dead : List Int) :
    Option (Nat × Nat) → Nat → List WorkerState → Option (Nat × Nat)
  | best, _, [] => best
  | best, i, w :: rest =>
    bestAux dead
      (if WorkerState.alive dead w &&
          (match best with
           | none => true
           | some pr => decide (w.shards.length < pr.2)) then
        some (i, w.shards.length)
       else best)
      (i + 1) rest

/-- Index of the alive worker with the fewest shards (first wins ties);
`none` when no worker is alive. -/
def bestWorkerIdx (dead : List Int) (ws : List WorkerState) : Option Nat :=
  (bestAux dead none 0 ws).map Prod.fst

/-- `Master::assign_worker` (master.cc:271-299): `none` models the fatal
`CHECK(best != NULL)` abort; otherwise the chosen worker's index is
returned together with the updated workers vector (a fresh
`TaskState(size = 1)` assigned, and — on the fallback path — the shard
ownership transferred via `assign_shard`). -/
def assign_worker (c : Ctx) (ws : List WorkerState) (table shard : Int) :
    Option (Nat × List WorkerState) :=
  match worker_for_shard ws table shard with
  | some i =>
    some (i, updateAt i (fun w => w.assign_task (TaskState.fresh ⟨table, shard⟩ 1)) ws)
  | none =>
    match bestWorkerIdx c.dead ws with
    | none => none
    | some b =>
      some (b, updateAt b (fun w =>
        (w.assign_shard c.tables shard true).assign_task
          (TaskState.fresh ⟨table, shard⟩ 1)) ws)

/-- Sequential `assign_worker` calls for a list of shards of one table
(the loop of `Master::assign_tasks`, master.cc:403-407). -/
def assignWorkerList (c : Ctx) (table : Int) :
    List Int → List WorkerState → Option (List WorkerState)
  | [], ws => some ws
  | s :: rest, ws =>
    match assign_worker c ws table s with
    | none => none
    | some (_, ws') => assignWorkerList c table rest ws'

/-- Shard indices `0 .. n-1` of a table with `n` shards. -/
def shardsOf (n : Int) : List Int :=
  (List.range n.toNat).map Int.ofNat

/-- The nested loops of `Master::assign_tables` (master.cc:384-394). -/
def assignTablesList (c : Ctx) :
    List (Int × Int) → List WorkerState → Option (List WorkerState)
  | [], ws => some ws
  | (t, n) :: rest, ws =>
    match assignWorkerList c t (shardsOf n) ws with
    | none => none
    | some ws' => assignTablesList c rest ws'

/-- `Master::assign_tables` (master.cc:380-395). -/
def assign_tables (c : Ctx) (ws : List WorkerState) : Option (List WorkerState) :=
  assignTablesList c c.tables ws

/-- `Master::assign_tasks` (master.cc:397-408): clear every worker's work
map, then assign a worker for each shard of the run. -/
def assign_tasks (c : Ctx) (tableId : Int) (shards : List Int)
    (ws : List WorkerState) : Option (List WorkerState) :=
  assignWorkerList c tableId shards (ws.map WorkerState.clear_tasks)

/-! ## `Master::dispatch_work` and reaping -/

/-- The per-worker body of the `Master::dispatch_work` loop
(master.cc:413-420): a worker with pending work and no active task gets
its best pending task marked `ACTIVE` via `get_next`. -/
def dispatchOne (tNow : ℚ) (w : WorkerState) : WorkerState :=
  if 0 < w.num_pending ∧ w.num_active = 0 then
    match w.get_next tNow with
    | some pr => pr.1
    | none => w
  else w

/-- `Master::dispatch_work` (master.cc:410-422): the number of workers
dispatched to, and the updated workers vector. -/
def dispatch_work (tNow : ℚ) (ws : List WorkerState) : Nat × List WorkerState :=
  (ws.countP (fun w => decide (0 < w.num_pending ∧ w.num_active = 0)),
    ws.map (dispatchOne tNow))

/-- The `MTYPE_RUN_KERNEL` sends of one `dispatch_work` call
(master.cc:418): destination network id `w.id + 1` together with the
dispatched task id. -/
def dispatchMsgs (ws : List WorkerState) : List (Int × Taskid) :=
  ws.filterMap (fun w =>
    if 0 < w.num_pending ∧ w.num_active = 0 then
      w.best_pending.map (fun t => (w.id + 1, t.id))
    else none)

/-- The state mutation of a successful `Master::reap_one_task`
(master.cc:442-461) on the reaped worker: `set_finished`, runtime
accounting, `ping()`. -/
def reapApply (tNow : ℚ) (w : WorkerState) (tid : Taskid) : Option WorkerState :=
  match w.set_finished tid with
  | none => none
  | some w1 =>
    some { w1 with
      totalRuntime := w1.totalRuntime + (tNow - w1.lastTaskStart),
      lastPingTime := tNow }

/-- A successful reap of task `tid` reported by worker `i`. -/
def reapAt (tNow : ℚ) (ws : List WorkerState) (i : Nat) (tid : Taskid) :
    Option (List WorkerState) :=
  match ws[i]? with
  | none => none
  | some w => (reapApply tNow w tid).map (fun w' => updateAt i (fun _ => w') ws)

/-! ## The master-loop step relations -/

/-- The worker-state mutations the master performs (`Master::run` and
`Master::barrier`). -/
inductive MStep (c : Ctx) : List WorkerState → List WorkerState → Prop
  | assignTables (ws ws' : List WorkerState) :
      assign_tables c ws = some ws' → MStep c ws ws'
  | assignTasks (tableId : Int) (shards : List Int) (ws ws' : List WorkerState) :
      assign_tasks c tableId shards ws = some ws' → MStep c ws ws'
  | dispatch (tNow : ℚ) (ws : List WorkerState) :
      MStep c ws (dispatch_work tNow ws).2
  | reap (tNow : ℚ) (ws : List WorkerState) (i : Nat) (tid : Taskid)
      (ws' : List WorkerState) :
      reapAt tNow ws i tid = some ws' → MStep c ws ws'
  | steal (nS : Int) (ws : List WorkerState) (idle : Nat) (avgCT : ℚ) :
      idle < ws.length → MStep c ws (steal_work c nS ws idle avgCT).2

/-- The steps available inside one kernel epoch, i.e. after `assign_tasks`
has created the epoch's fresh `TaskState`s. -/
inductive EpochStep (c : Ctx) : List WorkerState → List WorkerState → Prop
  | dispatch (tNow : ℚ) (ws : List WorkerState) :
      EpochStep c ws (dispatch_work tNow ws).2
  | reap (tNow : ℚ) (ws : List WorkerState) (i : Nat) (tid : Taskid)
      (ws' : List WorkerState) :
      reapAt tNow ws i tid = some ws' → EpochStep c ws ws'
  | steal (nS : Int) (ws : List WorkerState) (idle : Nat) (avgCT : ℚ) :
      idle < ws.length → EpochStep c ws (steal_work c nS ws idle avgCT).2

/-- Invariant: every worker has at most one `ACTIVE` task. -/
def OneActive (ws : List WorkerState) : Prop :=
  ∀ w ∈ ws, w.num_active ≤ 1

/-- The worker holds a task with id `tid` whose stolen flag is set. -/
def hasStolen (tid : Taskid) (w : WorkerState) : Prop :=
  ∃ t ∈ w.work, t.id = tid ∧ t.stolen = true

/-- A task with id `tid` and `stolen = true` sits in some worker's work map. -/
def stolenIn (ws : List WorkerState) (tid : Taskid) : Prop :=
  ∃ k, k < ws.length ∧ hasStolen tid (ws.getD k dummyWorker)

/-! ## `Master::run` (master.cc:469-508) -/

/-- The registered methods of a kernel class (piccolo/kernel.h,
`KernelInfoT::methods_`). -/
structure KernelInfo where
  methods : List String
deriving DecidableEq, Repr

/-- `KernelRegistry::kernel(name)` (piccolo/kernel.h): `std::map`
subscript returning a null pointer — `none` — for unknown names. -/
def kernelLookup (reg : List (String × KernelInfo)) (name : String) :
    Option KernelInfo :=
  (reg.find? (fun pr => pr.1 == name)).map Prod.snd

/-- `KernelInfo::has_method` (piccolo/kernel.h). -/
def has_method (k : KernelInfo) (m : String) : Bool :=
  k.methods.contains m

/-- `RunDescriptor`, declared in master.h (not under src/), modelled from
its uses in master.cc: kernel and method names, the locality table
(`none` models a null `Table*`; the `Int` is its id), and the shard list. -/
structure RunDescriptor where
  kernel : String
  method : String
  table : Option Int
  shards : List Int
deriving DecidableEq, Repr

/-- Messages `Master::run` emits before the barrier. -/
inductive MMsg where
  | SHARD_ASSIGNMENT
  | RUN_KERNEL (dest : Int) (tid : Taskid)
deriving DecidableEq, Repr

/-- Master bookkeeping read and written by `Master::run`. -/
structure MasterSt where
  workers : List WorkerState
  shardsAssigned : Bool
  finished : Nat
  currentRunShards : Nat
deriving Repr

/-- `Master::run` (master.cc:469-508) up to and including the initial
`dispatch_work`; the barrier is modelled separately. `Except.error`
models a fatal `CHECK` abort: no message is sent and no state is
produced. The checks appear in source order: previous run finished
(master.cc:476), table non-null (master.cc:480), kernel registered
(master.cc:481), method present (master.cc:482). -/
def masterRun (c : Ctx) (reg : List (String × KernelInfo)) (st : MasterSt)
    (r : RunDescriptor) (tNow : ℚ) : Except String (MasterSt × List MMsg) :=
  if st.currentRunShards ≠ st.finished then
    Except.error "cannot start kernel before previous one is finished"
  else
    match r.table with
    | none => Except.error "table locality must be specified"
    | some tableId =>
      match kernelLookup reg r.kernel with
      | none => Except.error "invalid kernel class"
      | some k =>
        if !(has_method k r.method) then Except.error "invalid method"
        else
          match
            (if !st.shardsAssigned then
              (assign_tables c st.workers).map (fun ws => (ws, [MMsg.SHARD_ASSIGNMENT]))
             else some (st.workers, []))
          with
          | none => Except.error "ran out of workers"
          | some (ws1, msgs1) =>
            match assign_tasks c tableId r.shards ws1 with
            | none => Except.error "ran out of workers"
            | some ws2 =>
              Except.ok
                ({ workers := (dispatch_work tNow ws2).2, shardsAssigned := true,
                   finished := 0, currentRunShards := r.shards.length },
                 msgs1 ++ (dispatchMsgs ws2).map (fun pr => MMsg.RUN_KERNEL pr.1 pr.2))

/-! ## Concrete scenarios used by counterexamples and witnesses -/

/-- Two registered tables, each with one shard; stealing on; all alive. -/
def ctxMig : Ctx := ⟨[(0, 1), (1, 1)], true, []⟩

/-- Pending size-1 task on table 0, shard 0. -/
def tMig0 : TaskState := ⟨⟨0, 0⟩, Status.PENDING, 1, false⟩

/-- Pending size-1 task on table 1, shard 0. -/
def tMig1 : TaskState := ⟨⟨1, 0⟩, Status.PENDING, 1, false⟩

/-- The loaded worker: owns shard 0 of both tables, two pending tasks. -/
def wMigSrc : WorkerState := ⟨0, [tMig0, tMig1], [⟨0, 0⟩, ⟨1, 0⟩], 0, 0, 0, false⟩

/-- The idle worker: no work, no shards. -/
def wMigDst : WorkerState := ⟨1, [], [], 0, 0, 0, false⟩

/-- The two-worker vector of the migration scenario. -/
def wsMig : List WorkerState := [wMigSrc, wMigDst]

/-- One table with three shards; stealing on; all alive (the self-steal
scenario: the only worker is simultaneously the most loaded and the idle
destination). -/
def ctxSelf : Ctx := ⟨[(0, 3)], true, []⟩

/-- Pending size-1 task on shard 0. -/
def tSelf0 : TaskState := ⟨⟨0, 0⟩, Status.PENDING, 1, false⟩

/-- Pending size-1 task on shard 1. -/
def tSelf1 : TaskState := ⟨⟨0, 1⟩, Status.PENDING, 1, false⟩

/-- Pending size-1 task on shard 2. -/
def tSelf2 : TaskState := ⟨⟨0, 2⟩, Status.PENDING, 1, false⟩

/-- The lone worker owning all three shards with three pending tasks. -/
def wSelf : WorkerState :=
  ⟨0, [tSelf0, tSelf1, tSelf2], [⟨0, 0⟩, ⟨0, 1⟩, ⟨0, 2⟩], 0, 0, 0, false⟩

/-- One table, one shard; worker id 0 is dead. -/
def ctxC5 : Ctx := ⟨[(0, 1)], false, [0]⟩

/-- A dead worker that still owns `(0, 0)`. -/
def wDeadOwner : WorkerState := ⟨0, [], [⟨0, 0⟩], 0, 0, 0, false⟩

/-- An alive worker owning nothing. -/
def wAliveC5 : WorkerState := ⟨1, [], [], 0, 0, 0, false⟩

/-- A worker carrying a stolen pending task (for the C8 witness). -/
def wStolenEx : WorkerState :=
  ⟨0, [⟨⟨0, 0⟩, Status.PENDING, 2, true⟩], [⟨0, 0⟩], 0, 0, 0, false⟩

/-- Worker with two non-stolen pending tasks of sizes 2 and 7
(for the C3 witness). -/
def wC3w : WorkerState :=
  ⟨0, [⟨⟨0, 0⟩, Status.PENDING, 2, false⟩, ⟨⟨0, 1⟩, Status.PENDING, 7, false⟩],
    [], 0, 0, 0, false⟩

/-- A registry with one kernel class exposing one method. -/
def regC9 : List (String × KernelInfo) := [("PRKernel", ⟨["run"]⟩)]

/-- A descriptor naming an unregistered kernel class. -/
def rBadKernel : RunDescriptor := ⟨"Missing", "run", some 0, [0]⟩

/-- A descriptor naming a method its kernel does not have. -/
def rBadMethod : RunDescriptor := ⟨"PRKernel", "flush", some 0, [0]⟩

/-- A quiescent master state with one worker. -/
def stC9 : MasterSt := ⟨[wMigDst], false, 0, 0⟩

/-! # Theorems -/

theorem updateAt_length (n : Nat) (f : α → α) (l : List α) :
    (updateAt n f l).length = l.length := by
  induction l generalizing n with
  | nil => cases n <;> rfl
  | cons x xs ih =>
    cases n with
    | zero => rfl
    | succ m => simpa [updateAt] using ih m

theorem getD_updateAt_self (n : Nat) (f : α → α) (l : List α) (d : α)
    (h : n < l.length) : (updateAt n f l).getD n d = f (l.getD n d) := by
  induction l generalizing n with
  | nil => simp at h
  | cons x xs ih =>
    cases n with
    | zero => rfl
    | succ m =>
      have hm : m < xs.length := by simpa using h
      simpa [updateAt] using ih m hm

theorem getD_updateAt_ne (n m : Nat) (f : α → α) (l : List α) (d : α)
    (h : n ≠ m) : (updateAt n f l).getD m d = l.getD m d := by
  induction l generalizing n m with
  | nil => cases n <;> rfl
  | cons x xs ih =>
    cases n with
    | zero =>
      cases m with
      | zero => exact absurd rfl h
      | succ k => rfl
    | succ n' =>
      cases m with
      | zero => rfl
      | succ k =>
        have h' : n' ≠ k := fun hc => h (by rw [hc])
        simpa [updateAt] using ih n' k h'

/-! ## Membership lemmas for the ordered-set and map primitives -/

theorem mem_setInsert (l : List Taskid) (x q : Taskid) :
    q ∈ setInsert l x ↔ q = x ∨ q ∈ l := by
  induction l with
  | nil => simp [setInsert]
  | cons y ys ih =>
    unfold setInsert
    split_ifs with h1 h2
    · simp
    · subst h2
      simp [List.mem_cons]
    · simp only [List.mem_cons, ih]
      tauto

theorem mem_setErase (l : List Taskid) (x q : Taskid) :
    q ∈ setErase l x ↔ q ∈ l ∧ q ≠ x := by
  simp [setErase, List.mem_filter]

theorem self_mem_mapInsert (l : List TaskState) (s : TaskState) :
    s ∈ mapInsert l s := by
  induction l with
  | nil => simp [mapInsert]
  | cons t ts ih =>
    unfold mapInsert
    split_ifs with h1 h2
    · exact List.mem_cons_self _ _
    · exact List.mem_cons_self _ _
    · exact List.mem_cons_of_mem _ ih

theorem mem_mapInsert_of_ne (l : List TaskState) (s t : TaskState)
    (ht : t ∈ l) (hne : t.id ≠ s.id) : t ∈ mapInsert l s := by
  induction l with
  | nil => simp at ht
  | cons u us ih =>
    unfold mapInsert
    rcases List.mem_cons.mp ht with h | h
    · subst h
      split_ifs with h1 h2
      · exact List.mem_cons_of_mem _ (List.mem_cons_self _ _)
      · exact absurd h2.symm hne
      · exact List.mem_cons_self _ _
    · split_ifs with h1 h2
      · exact List.mem_cons_of_mem _ (List.mem_cons_of_mem _ h)
      · exact List.mem_cons_of_mem _ h
      · exact List.mem_cons_of_mem _ (ih h)

theorem mem_mapErase (l : List TaskState) (tid : Taskid) (t : TaskState) :
    t ∈ mapErase l tid ↔ t ∈ l ∧ t.id ≠ tid := by
  simp [mapErase, List.mem_filter]

/-! ## Active-task counting (for the one-active invariant) -/

theorem countActive_cons_active (t : TaskState) (ts : List TaskState)
    (h : t.status = Status.ACTIVE) :
    countActive (t :: ts) = countActive ts + 1 := by
  unfold countActive
  rw [List.filter_cons, if_pos (by simp [h])]
  rfl

theorem countActive_cons_not_active (t : TaskState) (ts : List TaskState)
    (h : t.status ≠ Status.ACTIVE) :
    countActive (t :: ts) = countActive ts := by
  unfold countActive
  rw [List.filter_cons, if_neg (by simp [h])]

theorem countActive_filter_le (l : List TaskState) (p : TaskState → Bool) :
    countActive (l.filter p) ≤ countActive l :=
  List.Sublist.length_le (List.Sublist.filter _ (List.filter_sublist l))

theorem countActive_mapErase_le (l : List TaskState) (tid : Taskid) :
    countActive (mapErase l tid) ≤ countActive l :=
  countActive_filter_le l _

theorem countActive_markActiveFirst_le (l : List TaskState) (tid : Taskid) :
    countActive (markActiveFirst l tid) ≤ countActive l + 1 := by
  induction l with
  | nil => simp [markActiveFirst, countActive]
  | cons t ts ih =>
    unfold markActiveFirst
    by_cases h : t.id = tid
    · rw [if_pos h, countActive_cons_active _ _ rfl]
      by_cases ha : t.status = Status.ACTIVE
      · rw [countActive_cons_active _ _ ha]
        omega
      · rw [countActive_cons_not_active _ _ ha]
    · rw [if_neg h]
      by_cases ha : t.status = Status.ACTIVE
      · rw [countActive_cons_active _ _ ha, countActive_cons_active _ _ ha]
        omega
      · rw [countActive_cons_not_active _ _ ha, countActive_cons_not_active _ _ ha]
        exact ih

theorem countActive_markFinishedFirst_le (l : List TaskState) (tid : Taskid) :
    countActive (markFinishedFirst l tid) ≤ countActive l := by
  induction l with
  | nil => simp [markFinishedFirst, countActive]
  | cons t ts ih =>
    unfold markFinishedFirst
    by_cases h : t.id = tid
    · rw [if_pos h,
        countActive_cons_not_active _ _ (fun hc => Status.noConfusion hc)]
      by_cases ha : t.status = Status.ACTIVE
      · rw [countActive_cons_active _ _ ha]
        omega
      · rw [countActive_cons_not_active _ _ ha]
    · rw [if_neg h]
      by_cases ha : t.status = Status.ACTIVE
      · rw [countActive_cons_active _ _ ha, countActive_cons_active _ _ ha]
        omega
      · rw [countActive_cons_not_active _ _ ha, countActive_cons_not_active _ _ ha]
        exact ih

theorem countActive_setStolenFirst (l : List TaskState) (tid : Taskid) :
    countActive (setStolenFirst l tid) = countActive l := by
  induction l with
  | nil => rfl
  | cons t ts ih =>
    unfold setStolenFirst
    by_cases h : t.id = tid
    · by_cases ha : t.status = Status.ACTIVE
      · rw [if_pos h, countActive_cons_active { t with stolen := true } ts ha,
          countActive_cons_active _ _ ha]
      · rw [if_pos h, countActive_cons_not_active { t with stolen := true } ts ha,
          countActive_cons_not_active _ _ ha]
    · by_cases ha : t.status = Status.ACTIVE
      · rw [if_neg h, countActive_cons_active _ _ ha, countActive_cons_active _ _ ha, ih]
      · rw [if_neg h, countActive_cons_not_active _ _ ha,
          countActive_cons_not_active _ _ ha, ih]

theorem countActive_mapInsert_le (l : List TaskState) (s : TaskState)
    (hs : s.status ≠ Status.ACTIVE) :
    countActive (mapInsert l s) ≤ countActive l := by
  induction l with
  | nil =>
    unfold mapInsert
    rw [countActive_cons_not_active _ _ hs]
  | cons t ts ih =>
    unfold mapInsert
    split_ifs with h1 h2
    · rw [countActive_cons_not_active _ _ hs]
    · rw [countActive_cons_not_active _ _ hs]
      by_cases ha : t.status = Status.ACTIVE
      · rw [countActive_cons_active _ _ ha]
        omega
      · rw [countActive_cons_not_active _ _ ha]
    · by_cases ha : t.status = Status.ACTIVE
      · rw [countActive_cons_active _ _ ha, countActive_cons_active _ _ ha]
        omega
      · rw [countActive_cons_not_active _ _ ha, countActive_cons_not_active _ _ ha]
        exact ih

/-! ## Stolen-flag preservation lemmas (for claim C8) -/

theorem setStolenFirst_keeps (l : List TaskState) (tid : Taskid)
    (t : TaskState) (ht : t ∈ l) (hs : t.stolen = true) :
    ∃ t' ∈ setStolenFirst l tid, t'.id = t.id ∧ t'.stolen = true := by
  induction l with
  | nil => simp at ht
  | cons u us ih =>
    unfold setStolenFirst
    rcases List.mem_cons.mp ht with h | h
    · subst h
      by_cases hu : t.id = tid
      · rw [if_pos hu]
        exact ⟨{ t with stolen := true }, List.mem_cons_self _ _, rfl, rfl⟩
      · rw [if_neg hu]
        exact ⟨t, List.mem_cons_self _ _, rfl, hs⟩
    · by_cases hu : u.id = tid
      · rw [if_pos hu]
        exact ⟨t, List.mem_cons_of_mem _ h, rfl, hs⟩
      · rw [if_neg hu]
        obtain ⟨t', ht', hid, hst⟩ := ih h
        exact ⟨t', List.mem_cons_of_mem _ ht', hid, hst⟩

theorem markActiveFirst_keeps (l : List TaskState) (tid : Taskid)
    (t : TaskState) (ht : t ∈ l) (hs : t.stolen = true) :
    ∃ t' ∈ markActiveFirst l tid, t'.id = t.id ∧ t'.stolen = true := by
  induction l with
  | nil => simp at ht
  | cons u us ih =>
    unfold markActiveFirst
    rcases List.mem_cons.mp ht with h | h
    · subst h
      by_cases hu : t.id = tid
      · rw [if_pos hu]
        exact ⟨{ t with status := Status.ACTIVE }, List.mem_cons_self _ _, rfl, hs⟩
      · rw [if_neg hu]
        exact ⟨t, List.mem_cons_self _ _, rfl, hs⟩
    · by_cases hu : u.id = tid
      · rw [if_pos hu]
        exact ⟨t, List.mem_cons_of_mem _ h, rfl, hs⟩
      · rw [if_neg hu]
        obtain ⟨t', ht', hid, hst⟩ := ih h
        exact ⟨t', List.mem_cons_of_mem _ ht', hid, hst⟩

theorem markFinishedFirst_keeps (l : List TaskState) (tid : Taskid)
    (t : TaskState) (ht : t ∈ l) (hs : t.stolen = true) :
    ∃ t' ∈ markFinishedFirst l tid, t'.id = t.id ∧ t'.stolen = true := by
  induction l with
  | nil => simp at ht
  | cons u us ih =>
    unfold markFinishedFirst
    rcases List.mem_cons.mp ht with h | h
    · subst h
      by_cases hu : t.id = tid
      · rw [if_pos hu]
        exact ⟨{ t with status := Status.FINISHED }, List.mem_cons_self _ _, rfl, hs⟩
      · rw [if_neg hu]
        exact ⟨t, List.mem_cons_self _ _, rfl, hs⟩
    · by_cases hu : u.id = tid
      · rw [if_pos hu]
        exact ⟨t, List.mem_cons_of_mem _ h, rfl, hs⟩
      · rw [if_neg hu]
        obtain ⟨t', ht', hid, hst⟩ := ih h
        exact ⟨t', List.mem_cons_of_mem _ ht', hid, hst⟩

/-! ## Properties of the `max_element` fold -/

theorem maxElem_mem (comp : α → α → Bool) (p : α) (ps : List α) :
    maxElem comp p ps ∈ p :: ps := by
  induction ps generalizing p with
  | nil => simp [maxElem]
  | cons x xs ih =>
    have hstep : maxElem comp p (x :: xs) =
        maxElem comp (if comp p x then x else p) xs := rfl
    rw [hstep]
    rcases List.mem_cons.mp (ih (if comp p x then x else p)) with h1 | h1
    · rw [h1]
      split_ifs
      · exact List.mem_cons_of_mem _ (List.mem_cons_self _ _)
      · exact List.mem_cons_self _ _
    · exact List.mem_cons_of_mem _ (List.mem_cons_of_mem _ h1)

/-- When two tasks carry the same stolen flag, `WeightCompare` degenerates
to the size comparison. -/
theorem WeightCompare_same_flag (a b : TaskState) (h : a.stolen = b.stolen) :
    TaskState.WeightCompare a b = decide (a.size < b.size) := by
  unfold TaskState.WeightCompare
  cases hb : b.stolen with
  | true => simp [h, hb]
  | false => simp [h, hb]

/-- Over a pending list whose tasks all carry the same stolen flag, the
`max_element` fold with `WeightCompare` returns a task of maximal size. -/
theorem maxElem_WeightCompare_size_max (p : TaskState) (ps : List TaskState)
    (hsame : ∀ a ∈ p :: ps, ∀ b ∈ p :: ps, a.stolen = b.stolen) :
    ∀ a ∈ p :: ps, a.size ≤ (maxElem TaskState.WeightCompare p ps).size := by
  induction ps generalizing p with
  | nil =>
    intro a ha
    rcases List.mem_cons.mp ha with h | h
    · rw [h]; exact le_refl _
    · simp at h
  | cons x xs ih =>
    have hstep : maxElem TaskState.WeightCompare p (x :: xs) =
        maxElem TaskState.WeightCompare (if TaskState.WeightCompare p x then x else p) xs :=
      rfl
    have hpx : p.stolen = x.stolen :=
      hsame p (List.mem_cons_self _ _) x (List.mem_cons_of_mem _ (List.mem_cons_self _ _))
    have hwc : TaskState.WeightCompare p x = decide (p.size < x.size) :=
      WeightCompare_same_flag p x hpx
    -- the surviving candidate after comparing p with x
    set q : TaskState := if TaskState.WeightCompare p x then x else p with hq
    have hq_mem : q ∈ p :: x :: xs := by
      rw [hq]
      split_ifs
      · exact List.mem_cons_of_mem _ (List.mem_cons_self _ _)
      · exact List.mem_cons_self _ _
    have hsame' : ∀ a ∈ q :: xs, ∀ b ∈ q :: xs, a.stolen = b.stolen := by
      intro a ha b hb
      have hmem : ∀ c, c ∈ q :: xs → c ∈ p :: x :: xs := by
        intro c hc
        rcases List.mem_cons.mp hc with h | h
        · rw [h]; exact hq_mem
        · exact List.mem_cons_of_mem _ (List.mem_cons_of_mem _ h)
      exact hsame a (hmem a ha) b (hmem b hb)
    have hmax := ih q hsame'
    have hp_le : p.size ≤ q.size := by
      rw [hq]
      split_ifs with hc
      · rw [hwc] at hc
        exact le_of_lt (of_decide_eq_true hc)
      · exact le_refl _
    have hx_le : x.size ≤ q.size := by
      rw [hq]
      split_ifs with hc
      · exact le_refl _
      · rw [hwc] at hc
        have := of_decide_eq_false (Bool.of_not_eq_true hc)
        omega
    intro a ha
    rw [hstep]
    have hq_max : q.size ≤ (maxElem TaskState.WeightCompare q xs).size :=
      hmax q (List.mem_cons_self _ _)
    rcases List.mem_cons.mp ha with h | h
    · rw [h]; exact le_trans hp_le hq_max
    · rcases List.mem_cons.mp h with h' | h'
      · rw [h']; exact le_trans hx_le hq_max
      · exact hmax a (List.mem_cons_of_mem _ h')

/-! ## Shard-ownership transfer (`assign_shard`) -/

theorem mem_shardInsertFold (shard : Int) (tables : List (Int × Int)) :
    ∀ (s0 : List Taskid) (q : Taskid),
      q ∈ tables.foldl (fun s p =>
          if shard < p.2 then setInsert s ⟨p.1, shard⟩ else s) s0 ↔
        q ∈ s0 ∨ (q.shard = shard ∧ tableHasShard tables q.table shard = true) := by
  induction tables with
  | nil => intro s0 q; simp [tableHasShard]
  | cons a rest ih =>
    intro s0 q
    rw [List.foldl_cons]
    by_cases h : shard < a.2
    · rw [if_pos h, ih]
      obtain ⟨qt, qs⟩ := q
      simp only [mem_setInsert, tableHasShard, List.any_cons, Taskid.mk.injEq,
        Bool.or_eq_true, Bool.and_eq_true, beq_iff_eq, decide_eq_true_eq]
      constructor
      · rintro (((⟨h1, h2⟩) | hq) | ⟨h1, h2⟩)
        · exact Or.inr ⟨h2, Or.inl ⟨h1.symm, h⟩⟩
        · exact Or.inl hq
        · exact Or.inr ⟨h1, Or.inr h2⟩
      · rintro (hq | ⟨h1, (⟨h2, _⟩ | h2)⟩)
        · exact Or.inl (Or.inr hq)
        · exact Or.inl (Or.inl ⟨h2.symm, h1⟩)
        · exact Or.inr ⟨h1, h2⟩
    · rw [if_neg h, ih]
      obtain ⟨qt, qs⟩ := q
      simp only [tableHasShard, List.any_cons, Bool.or_eq_true, Bool.and_eq_true,
        beq_iff_eq, decide_eq_true_eq]
      constructor
      · rintro (hq | ⟨h1, h2⟩)
        · exact Or.inl hq
        · exact Or.inr ⟨h1, Or.inr h2⟩
      · rintro (hq | ⟨h1, (⟨_, h2⟩ | h2)⟩)
        · exact Or.inl hq
        · exact absurd h2 h
        · exact Or.inr ⟨h1, h2⟩

theorem mem_shardEraseFold (shard : Int) (tables : List (Int × Int)) :
    ∀ (s0 : List Taskid) (q : Taskid),
      q ∈ tables.foldl (fun s p =>
          if shard < p.2 then setErase s ⟨p.1, shard⟩ else s) s0 ↔
        q ∈ s0 ∧ ¬(q.shard = shard ∧ tableHasShard tables q.table shard = true) := by
  induction tables with
  | nil => intro s0 q; simp [tableHasShard]
  | cons a rest ih =>
    intro s0 q
    rw [List.foldl_cons]
    by_cases h : shard < a.2
    · rw [if_pos h, ih]
      obtain ⟨qt, qs⟩ := q
      simp only [mem_setErase, tableHasShard, List.any_cons, ne_eq, Taskid.mk.injEq,
        Bool.or_eq_true, Bool.and_eq_true, beq_iff_eq, decide_eq_true_eq]
      constructor
      · rintro ⟨⟨hq, hne⟩, hrest⟩
        refine ⟨hq, fun hc => ?_⟩
        rcases hc with ⟨hqs, (⟨hqa, _⟩ | hr)⟩
        · exact hne ⟨hqa.symm, hqs⟩
        · exact hrest ⟨hqs, hr⟩
      · rintro ⟨hq, hall⟩
        refine ⟨⟨hq, fun hc => ?_⟩, fun hc => ?_⟩
        · exact hall ⟨hc.2, Or.inl ⟨hc.1.symm, h⟩⟩
        · exact hall ⟨hc.1, Or.inr hc.2⟩
    · rw [if_neg h, ih]
      obtain ⟨qt, qs⟩ := q
      simp only [tableHasShard, List.any_cons, Bool.or_eq_true, Bool.and_eq_true,
        beq_iff_eq, decide_eq_true_eq]
      constructor
      · rintro ⟨hq, hrest⟩
        refine ⟨hq, fun hc => ?_⟩
        rcases hc with ⟨hqs, (⟨_, hlt⟩ | hr)⟩
        · exact h hlt
        · exact hrest ⟨hqs, hr⟩
      · rintro ⟨hq, hall⟩
        exact ⟨hq, fun hc => hall ⟨hc.1, Or.inr hc.2⟩⟩

theorem mem_assign_shard_true (tables : List (Int × Int)) (w : WorkerState)
    (shard : Int) (q : Taskid) :
    q ∈ (w.assign_shard tables shard true).shards ↔
      q ∈ w.shards ∨ (q.shard = shard ∧ tableHasShard tables q.table shard = true) := by
  unfold WorkerState.assign_shard
  exact mem_shardInsertFold shard tables w.shards q

theorem mem_assign_shard_false (tables : List (Int × Int)) (w : WorkerState)
    (shard : Int) (q : Taskid) :
    q ∈ (w.assign_shard tables shard false).shards ↔
      q ∈ w.shards ∧ ¬(q.shard = shard ∧ tableHasShard tables q.table shard = true) := by
  unfold WorkerState.assign_shard
  exact mem_shardEraseFold shard tables w.shards q

theorem assign_shard_work (tables : List (Int × Int)) (w : WorkerState)
    (shard : Int) (b : Bool) : (w.assign_shard tables shard b).work = w.work :=
  rfl

/-! ## `Master::steal_work` (master.cc:318-378) -/

/-- Any run of `steal_work` either returns `false` with the workers vector
untouched, or returns `true` with the migration block applied to the
`WeightCompare`-selected, not-yet-stolen pending task of the most-loaded
worker. -/
theorem steal_work_shape (c : Ctx) (numShards : Int) (ws : List WorkerState)
    (idle : Nat) (avgCT : ℚ) :
    steal_work c numShards ws idle avgCT = (false, ws) ∨
      ∃ task,
        (ws.getD (maxElemIdx WorkerState.PendingCompare ws)
          dummyWorker).best_pending = some task ∧
        task.stolen = false ∧
        steal_work c numShards ws idle avgCT =
          (true, stealApply c.tables ws (maxElemIdx WorkerState.PendingCompare ws)
            idle task) := by
  unfold steal_work
  split
  · exact Or.inl rfl
  · split
    · exact Or.inl rfl
    · split
      next heq => exact Or.inl rfl
      next p ps heq =>
        split
        · exact Or.inl rfl
        · next hstolen =>
          split
          · exact Or.inl rfl
          · refine Or.inr ⟨maxElem TaskState.WeightCompare p ps, ?_, ?_, rfl⟩
            · unfold WorkerState.best_pending
              rw [heq]
            · exact Bool.of_not_eq_true hstolen

/-- Once `steal_work` has passed the flag, liveness, pending-nonempty and
not-already-stolen guards, the outcome hinges on the `eta`/`move_cost`
comparison alone. -/
theorem steal_work_cost_branch (c : Ctx) (numShards : Int)
    (ws : List WorkerState) (idle : Nat) (avgCT : ℚ)
    (p : TaskState) (ps : List TaskState)
    (hflag : c.work_stealing = true)
    (halive : WorkerState.alive c.dead (ws.getD idle dummyWorker) = true)
    (hpend : (ws.getD (maxElemIdx WorkerState.PendingCompare ws) dummyWorker).pending
      = p :: ps)
    (hstolen : (maxElem TaskState.WeightCompare p ps).stolen = false) :
    steal_work c numShards ws idle avgCT =
      if eta (p :: ps) avgCT (average_size numShards) ≤
          move_cost (maxElem TaskState.WeightCompare p ps).size avgCT
            (average_size numShards)
      then (false, ws)
      else (true, stealApply c.tables ws (maxElemIdx WorkerState.PendingCompare ws)
        idle (maxElem TaskState.WeightCompare p ps)) := by
  unfold steal_work
  rw [hflag, halive, hpend]
  simp only [Bool.not_true, Bool.false_eq_true, if_false, hstolen]

theorem getD_updateAt (n k : Nat) (f : α → α) (l : List α) (d : α)
    (hk : k < l.length) :
    (updateAt n f l).getD k d = if n = k then f (l.getD k d) else l.getD k d := by
  by_cases h : n = k
  · subst h
    rw [if_pos rfl]
    exact getD_updateAt_self n f l d hk
  · rw [if_neg h]
    exact getD_updateAt_ne n k f l d h

theorem stealApply_length (tables : List (Int × Int)) (ws : List WorkerState)
    (srcIdx idle : Nat) (task : TaskState) :
    (stealApply tables ws srcIdx idle task).length = ws.length := by
  unfold stealApply
  simp only [updateAt_length]

/-- In a steal between distinct workers, the destination ends as the source
text writes it: shard ownership added, then the stolen task inserted. -/
theorem stealApply_getD_dst (tables : List (Int × Int)) (ws : List WorkerState)
    (srcIdx idle : Nat) (task : TaskState) (hne : srcIdx ≠ idle)
    (hidle : idle < ws.length) :
    (stealApply tables ws srcIdx idle task).getD idle dummyWorker =
      ((ws.getD idle dummyWorker).assign_shard tables task.id.shard true).assign_task
        { task with stolen := true } := by
  unfold stealApply
  rw [getD_updateAt_self _ _ _ _ (by simp only [updateAt_length]; exact hidle),
    getD_updateAt_ne _ _ _ _ _ hne, getD_updateAt_ne _ _ _ _ _ hne,
    getD_updateAt_self _ _ _ _ (by simp only [updateAt_length]; exact hidle),
    getD_updateAt_ne _ _ _ _ _ hne]

/-- In a steal between distinct workers, the source ends with the stolen
flag set in its work map, the shard ownership erased, and the task removed. -/
theorem stealApply_getD_src (tables : List (Int × Int)) (ws : List WorkerState)
    (srcIdx idle : Nat) (task : TaskState) (hne : srcIdx ≠ idle)
    (hsrc : srcIdx < ws.length) :
    (stealApply tables ws srcIdx idle task).getD srcIdx dummyWorker =
      (({ ws.getD srcIdx dummyWorker with
            work := setStolenFirst (ws.getD srcIdx dummyWorker).work task.id
          }).assign_shard tables task.id.shard false).remove_task task.id := by
  unfold stealApply
  rw [getD_updateAt_ne _ _ _ _ _ (Ne.symm hne),
    getD_updateAt_self _ _ _ _ (by simp only [updateAt_length]; exact hsrc),
    getD_updateAt_self _ _ _ _ (by simp only [updateAt_length]; exact hsrc),
    getD_updateAt_ne _ _ _ _ _ (Ne.symm hne),
    getD_updateAt_self _ _ _ _ hsrc]

/-- Workers other than the source and the destination are untouched. -/
theorem stealApply_getD_other (tables : List (Int × Int)) (ws : List WorkerState)
    (srcIdx idle : Nat) (task : TaskState) (k : Nat) (h1 : k ≠ srcIdx)
    (h2 : k ≠ idle) :
    (stealApply tables ws srcIdx idle task).getD k dummyWorker =
      ws.getD k dummyWorker := by
  unfold stealApply
  rw [getD_updateAt_ne _ _ _ _ _ (Ne.symm h2), getD_updateAt_ne _ _ _ _ _ (Ne.symm h1),
    getD_updateAt_ne _ _ _ _ _ (Ne.symm h1), getD_updateAt_ne _ _ _ _ _ (Ne.symm h2),
    getD_updateAt_ne _ _ _ _ _ (Ne.symm h1)]

theorem range_foldl_add_one (n : Nat) :
    ∀ a : ℚ, (List.range n).foldl (fun x _ => x + 1) a = a + n := by
  induction n with
  | zero => intro a; simp
  | succ k ih =>
    intro a
    rw [List.range_succ, List.foldl_append, ih]
    simp only [List.foldl_cons, List.foldl_nil]
    push_cast
    ring

/-- With at least one shard, the `average_size` loop computes exactly `1`
(`numShards` increments of `1`, divided by `numShards`). -/
theorem average_size_eq_one (nS : Int) (h : 1 ≤ nS) : average_size nS = 1 := by
  unfold average_size
  rw [range_foldl_add_one, zero_add]
  have hcast : ((nS.toNat : ℚ)) = (nS : ℚ) := by
    have h0 := Int.toNat_of_nonneg (le_trans zero_le_one h)
    exact_mod_cast congrArg (fun z : ℤ => (z : ℚ)) h0
  rw [hcast]
  have hne : (nS : ℚ) ≠ 0 := by
    have hpos : (0 : ℚ) < (nS : ℚ) := by exact_mod_cast lt_of_lt_of_le zero_lt_one h
    exact ne_of_gt hpos
  exact div_self hne

/-! ## Claim C3: task selection order -/

/-- **C3** counterexample. The claim says the selection maximizes a ranking
under which a stolen task outranks every non-stolen task. On a pending
list holding a stolen size-5 task and a non-stolen size-1 task, the
source's `max_element(..., WeightCompare)` fold selects the *non-stolen*
size-1 task, even though the spec's ranking places the stolen task
strictly above it: `WeightCompare` is used as a less-than, so
`a.stolen && !b.stolen` makes `a` *smaller*, not larger. -/
theorem C3_counterexample :
    wC3.best_pending = some tPlainC3 ∧ tStolenC3 ∈ wC3.pending ∧
      tStolenC3 ≠ tPlainC3 ∧ specOutranks tStolenC3 tPlainC3 = true ∧
      specOutranks tPlainC3 tStolenC3 = false := by
  refine ⟨rfl, List.mem_cons_self _ _, ?_, rfl, rfl⟩
  intro h
  exact absurd (congrArg TaskState.size h) (by decide)

/-- **C3** amended: both `get_next` (master.cc:195) and `steal_work`
(master.cc:339) select the task returned by `std::max_element` over the
pending vector with `WeightCompare` as its *less-than* comparator — the
left-to-right fold that replaces the current best when it is stolen and
the candidate is not, or when its size is strictly smaller. Consequently,
when every pending task carries the same stolen flag the selected task has
maximal size; stolen tasks do not in general outrank non-stolen ones. -/
theorem C3_selection_characterization :
    (∀ (w : WorkerState) (tNow : ℚ),
        (w.get_next tNow).map Prod.snd = w.best_pending.map TaskState.id) ∧
    (∀ (c : Ctx) (nS : Int) (ws : List WorkerState) (idle : Nat) (avgCT : ℚ)
        (ws' : List WorkerState),
        steal_work c nS ws idle avgCT = (true, ws') →
        ∃ t, (ws.getD (maxElemIdx WorkerState.PendingCompare ws)
            dummyWorker).best_pending = some t ∧
          ws' = stealApply c.tables ws (maxElemIdx WorkerState.PendingCompare ws)
            idle t) ∧
    (∀ (w : WorkerState) (t : TaskState), w.best_pending = some t →
        (∀ a ∈ w.pending, ∀ b ∈ w.pending, a.stolen = b.stolen) →
        t ∈ w.pending ∧ ∀ a ∈ w.pending, a.size ≤ t.size) := by
  refine ⟨?_, ?_, ?_⟩
  · intro w tNow
    unfold WorkerState.get_next
    cases h : w.best_pending with
    | none => rfl
    | some best => rfl
  · intro c nS ws idle avgCT ws' hrun
    rcases steal_work_shape c nS ws idle avgCT with hsh | ⟨task, hbp, _, hsh⟩
    · rw [hrun] at hsh
      exact absurd (congrArg Prod.fst hsh) (by simp)
    · rw [hrun] at hsh
      exact ⟨task, hbp, ((Prod.mk.injEq _ _ _ _).mp hsh.symm).2.symm⟩
  · intro w t hbp hsame
    unfold WorkerState.best_pending at hbp
    cases hp : w.pending with
    | nil => rw [hp] at hbp; exact absurd hbp (by simp)
    | cons p ps =>
      rw [hp] at hbp
      have ht : t = maxElem TaskState.WeightCompare p ps := by
        injection hbp with h
        exact h.symm
      rw [hp] at hsame
      subst ht
      exact ⟨maxElem_mem _ p ps, maxElem_WeightCompare_size_max p ps hsame⟩

/-- Witness for `C3_selection_characterization`: on a worker whose two
pending tasks are both non-stolen and have sizes 2 and 7, the selected
best pending task is the member of size 7, maximal among the pending. -/
theorem C3_selection_characterization_witness :
    (⟨⟨0, 1⟩, Status.PENDING, 7, false⟩ : TaskState) ∈ wC3w.pending ∧
      ∀ a ∈ wC3w.pending,
        a.size ≤ (⟨⟨0, 1⟩, Status.PENDING, 7, false⟩ : TaskState).size :=
  C3_selection_characterization.2.2 wC3w ⟨⟨0, 1⟩, Status.PENDING, 7, false⟩
    rfl (by decide)

/-! ## The flush/apply phase of `Master::barrier` (claim C1) -/

/-- **C1** (code_bug evidence). The spec says the barrier repeats the flush
round while any worker reports `updates_done > 0` and, as soon as a round
has every worker report `0`, proceeds past flush and broadcasts
`WORKER_APPLY` once. In the source the loop at master.cc:556-583 is
`do { ... } while (1);`: the `WORKER_APPLY` broadcast at master.cc:586 is
unreachable no matter what the workers respond — in particular after an
all-zero round. -/
theorem C1_flush_never_reaches_apply :
    ∀ (fuel : Nat) (responses : Nat → List Nat),
      flushReachesApply fuel responses = false := by
  intro fuel
  induction fuel with
  | zero => intro responses; rfl
  | succ n ih =>
    intro responses
    simpa [flushReachesApply, flushLoopCond] using ih (fun k => responses (k + 1))

/-- **C2** (code_bug evidence). The spec says that after every successful
reap, every worker meeting the stealing preconditions gets one
`steal_work` attempt. In the source the whole steal block is guarded by
`if (lastWorkCheck - Now() > 0.1)` (master.cc:522) where `lastWorkCheck`
was sampled *before* the current `Now()`: under a monotone clock the guard
is never true, so `steal_work` is invoked for no worker at all, whatever
the preconditions. -/
theorem C2_steal_block_dead (lastWorkCheck tNow : ℚ)
    (hclock : lastWorkCheck ≤ tNow) (shardCalls : Nat) (avgCT : ℚ)
    (ws : List WorkerState) :
    barrierStealInvocations lastWorkCheck tNow shardCalls avgCT ws = [] := by
  unfold barrierStealInvocations
  have h : ¬ (lastWorkCheck - tNow > 1/10) := by
    have h0 : lastWorkCheck - tNow ≤ 0 := by linarith
    intro hgt
    linarith
  rw [if_neg h]

/-- Witness for `C2_steal_block_dead`: at a concrete post-reap state in
which a worker satisfies every stealing precondition, no `steal_work`
invocation happens. -/
theorem C2_steal_block_dead_witness :
    stealPrecondition 11 1 1 wIdleC2 = true ∧
      barrierStealInvocations 0 1 11 1 [wIdleC2] = [] :=
  ⟨by norm_num [stealPrecondition, WorkerState.idle_time, WorkerState.num_finished,
      wIdleC2], C2_steal_block_dead 0 1 (by norm_num) 11 1 [wIdleC2]⟩

/-! ## Bridging lemmas for positional reasoning -/

theorem getD_map_lt (f : α → β) (l : List α) (n : Nat) (d : α) (d' : β)
    (h : n < l.length) : (l.map f).getD n d' = f (l.getD n d) := by
  induction l generalizing n with
  | nil => simp at h
  | cons a as ih =>
    cases n with
    | zero => rfl
    | succ m => simpa using ih m (by simpa using h)

theorem mem_updateAt (n : Nat) (f : α → α) (l : List α) (x : α)
    (hx : x ∈ updateAt n f l) : x ∈ l ∨ ∃ y ∈ l, x = f y := by
  induction l generalizing n with
  | nil => cases n <;> simp [updateAt] at hx
  | cons a as ih =>
    cases n with
    | zero =>
      rcases List.mem_cons.mp hx with h | h
      · exact Or.inr ⟨a, List.mem_cons_self _ _, h⟩
      · exact Or.inl (List.mem_cons_of_mem _ h)
    | succ m =>
      rcases List.mem_cons.mp hx with h | h
      · exact Or.inl (by rw [h]; exact List.mem_cons_self _ _)
      · rcases ih m h with h' | ⟨y, hy, hxy⟩
        · exact Or.inl (List.mem_cons_of_mem _ h')
        · exact Or.inr ⟨y, List.mem_cons_of_mem _ hy, hxy⟩

theorem preserve_through_updateAt (P : α → Prop) (n k : Nat) (f : α → α)
    (l : List α) (d : α) (hk : k < l.length) (hf : ∀ x, P x → P (f x))
    (hP : P (l.getD k d)) : P ((updateAt n f l).getD k d) := by
  rw [getD_updateAt n k f l d hk]
  split_ifs with h
  · exact hf _ hP
  · exact hP

theorem getD_eq_of_getElem? (l : List α) (i : Nat) (d x : α)
    (h : l[i]? = some x) : l.getD i d = x := by
  induction l generalizing i with
  | nil => simp at h
  | cons a as ih =>
    cases i with
    | zero =>
      simp only [List.getElem?_cons_zero, Option.some.injEq] at h
      simpa using h
    | succ m =>
      simp only [List.getElem?_cons_succ] at h
      simpa using ih m h

theorem lt_length_of_getElem? (l : List α) (i : Nat) (x : α)
    (h : l[i]? = some x) : i < l.length := by
  induction l generalizing i with
  | nil => simp at h
  | cons a as ih =>
    cases i with
    | zero => simp
    | succ m =>
      simp only [List.getElem?_cons_succ] at h
      simpa using ih m h

theorem num_active_countActive (w : WorkerState) :
    w.num_active = countActive w.work := rfl

/-! ## Characterizations of `set_finished`, reaping and dispatching -/

/-- `WorkerState::set_finished` succeeds exactly on a present `ACTIVE`
task, which it marks `FINISHED`. -/
theorem set_finished_char (w : WorkerState) (tid : Taskid) (w' : WorkerState)
    (h : w.set_finished tid = some w') :
    (∃ t ∈ w.work, t.id = tid ∧ t.status = Status.ACTIVE) ∧
      w'.work = markFinishedFirst w.work tid := by
  unfold WorkerState.set_finished at h
  cases hf : w.work.find? (fun t => t.id == tid) with
  | none => rw [hf] at h; cases h
  | some t =>
    rw [hf] at h
    have h' : (if t.status = Status.ACTIVE then
        some { w with work := markFinishedFirst w.work tid } else none) = some w' := h
    split_ifs at h' with hst
    injection h' with h'
    subst h'
    refine ⟨⟨t, List.mem_of_find?_eq_some hf, ?_, hst⟩, rfl⟩
    have hp := List.find?_some hf
    simpa using hp

theorem reapApply_work (tNow : ℚ) (w : WorkerState) (tid : Taskid)
    (w1 : WorkerState) (h : reapApply tNow w tid = some w1) :
    w1.work = markFinishedFirst w.work tid := by
  unfold reapApply at h
  cases hsf : w.set_finished tid with
  | none => rw [hsf] at h; cases h
  | some w2 =>
    rw [hsf] at h
    injection h with h
    subst h
    exact (set_finished_char w tid w2 hsf).2

/-- A selected best pending task is a pending (hence `PENDING`) task. -/
theorem best_pending_status (w : WorkerState) (t : TaskState)
    (h : w.best_pending = some t) :
    t ∈ w.pending ∧ t.status = Status.PENDING := by
  unfold WorkerState.best_pending at h
  cases hp : w.pending with
  | nil => rw [hp] at h; cases h
  | cons p ps =>
    rw [hp] at h
    injection h with h
    subst h
    have hm : maxElem TaskState.WeightCompare p ps ∈ w.pending := by
      rw [hp]; exact maxElem_mem _ p ps
    have hm' : maxElem TaskState.WeightCompare p ps ∈
        w.work.filter (fun t => t.status == Status.PENDING) := hm
    exact ⟨maxElem_mem _ p ps, by simpa using List.of_mem_filter hm'⟩

/-- `dispatchOne` either leaves the worker alone or marks its best pending
task `ACTIVE`. -/
theorem dispatchOne_work_shape (tNow : ℚ) (w : WorkerState) :
    (dispatchOne tNow w).work = w.work ∨
      ∃ best, w.best_pending = some best ∧
        (dispatchOne tNow w).work = markActiveFirst w.work best.id := by
  unfold dispatchOne WorkerState.get_next
  split_ifs with hg
  · cases hbp : w.best_pending with
    | none => exact Or.inl rfl
    | some best => exact Or.inr ⟨best, rfl, rfl⟩
  · exact Or.inl rfl

theorem dispatchOne_one_active (tNow : ℚ) (w : WorkerState)
    (h : w.num_active ≤ 1) : (dispatchOne tNow w).num_active ≤ 1 := by
  unfold dispatchOne WorkerState.get_next
  split_ifs with hg
  · cases hbp : w.best_pending with
    | none => exact h
    | some best =>
      show countActive (markActiveFirst w.work best.id) ≤ 1
      have hle := countActive_markActiveFirst_le w.work best.id
      have h0 : countActive w.work = 0 := by
        rw [← num_active_countActive]; exact hg.2
      omega
  · exact h

/-! ## Concrete steal runs -/

/-- In the two-worker migration scenario, `steal_work` migrates the task
`(0, 0)` from worker 0 to worker 1: with `avg_completion_time = 1/2`,
`move_cost = max(1, 2·1·(1/2)/1) = 1` and `eta = 1 + 1 = 2 > 1`. -/
theorem stealMig_runs :
    steal_work ctxMig 1 wsMig 1 (1/2) =
      (true, stealApply ctxMig.tables wsMig 0 1 tMig0) := by
  have hb := steal_work_cost_branch ctxMig 1 wsMig 1 (1/2) tMig0 [tMig1]
    rfl rfl rfl rfl
  rw [average_size_eq_one 1 (by norm_num)] at hb
  have hmax : maxElem TaskState.WeightCompare tMig0 [tMig1] = tMig0 := rfl
  rw [hmax] at hb
  have heta : eta [tMig0, tMig1] (1/2) 1 = 2 := by
    unfold eta
    simp only [List.foldl_cons, List.foldl_nil, tMig0, tMig1]
    rw [show ((((1 : Int) : ℚ)) * (1/2) / 1 : ℚ) = 1/2 by norm_num]
    rw [max_eq_left (by norm_num : ((1 : ℚ)/2) ≤ 1)]
    norm_num
  have hmc : move_cost tMig0.size (1/2) 1 = 1 := by
    unfold move_cost
    rw [show ((2 : ℚ) * ((tMig0.size : Int) : ℚ) * (1/2) / 1 : ℚ) = 1 by
      norm_num [tMig0]]
    exact max_eq_left (by norm_num)
  rw [heta, hmc] at hb
  rw [if_neg (by norm_num : ¬ ((2 : ℚ) ≤ 1))] at hb
  exact hb

/-- In the one-worker scenario the guards also pass — the idle destination
*is* the most-loaded source — and `steal_work` returns `true`:
`move_cost = 2`, `eta = 3`. -/
theorem stealSelf_runs :
    steal_work ctxSelf 3 [wSelf] 0 1 =
      (true, stealApply ctxSelf.tables [wSelf] 0 0 tSelf0) := by
  have hb := steal_work_cost_branch ctxSelf 3 [wSelf] 0 1 tSelf0 [tSelf1, tSelf2]
    rfl rfl rfl rfl
  rw [average_size_eq_one 3 (by norm_num)] at hb
  have hmax : maxElem TaskState.WeightCompare tSelf0 [tSelf1, tSelf2] = tSelf0 := rfl
  rw [hmax] at hb
  have heta : eta [tSelf0, tSelf1, tSelf2] 1 1 = 3 := by
    unfold eta
    simp only [List.foldl_cons, List.foldl_nil, tSelf0, tSelf1, tSelf2]
    rw [show ((((1 : Int) : ℚ)) * 1 / 1 : ℚ) = 1 by norm_num]
    rw [max_self]
    norm_num
  have hmc : move_cost tSelf0.size 1 1 = 2 := by
    unfold move_cost
    rw [show ((2 : ℚ) * ((tSelf0.size : Int) : ℚ) * 1 / 1 : ℚ) = 2 by
      norm_num [tSelf0]]
    exact max_eq_right (by norm_num)
  rw [heta, hmc] at hb
  rw [if_neg (by norm_num : ¬ ((3 : ℚ) ≤ 2))] at hb
  exact hb

/-! ## Claims C4 and C10: the migration block -/

/-- Everything a successful steal between two distinct workers does,
derived once and shared by the claim theorems below. -/
theorem steal_true_facts (c : Ctx) (nS : Int) (ws ws' : List WorkerState)
    (idle : Nat) (avgCT : ℚ) (t : TaskState)
    (hrun : steal_work c nS ws idle avgCT = (true, ws'))
    (hbp : (ws.getD (maxElemIdx WorkerState.PendingCompare ws)
      dummyWorker).best_pending = some t)
    (hne : maxElemIdx WorkerState.PendingCompare ws ≠ idle)
    (hidle : idle < ws.length)
    (hsrc : maxElemIdx WorkerState.PendingCompare ws < ws.length) :
    ({ t with stolen := true }) ∈ (ws'.getD idle dummyWorker).work ∧
    (∀ s ∈ (ws'.getD (maxElemIdx WorkerState.PendingCompare ws) dummyWorker).work,
      s.id ≠ t.id) ∧
    (∀ q : Taskid, q ∈ (ws'.getD idle dummyWorker).shards ↔
      q ∈ (ws.getD idle dummyWorker).shards ∨
        (q.shard = t.id.shard ∧ tableHasShard c.tables q.table t.id.shard = true)) ∧
    (∀ q : Taskid, q ∈ (ws'.getD (maxElemIdx WorkerState.PendingCompare ws)
        dummyWorker).shards ↔
      q ∈ (ws.getD (maxElemIdx WorkerState.PendingCompare ws) dummyWorker).shards ∧
        ¬(q.shard = t.id.shard ∧ tableHasShard c.tables q.table t.id.shard = true)) ∧
    (∀ k, k ≠ idle → k ≠ maxElemIdx WorkerState.PendingCompare ws →
      ws'.getD k dummyWorker = ws.getD k dummyWorker) := by
  rcases steal_work_shape c nS ws idle avgCT with hsh | ⟨task, hbp', _, hsh⟩
  · rw [hrun] at hsh
    exact absurd (congrArg Prod.fst hsh) (by simp)
  · rw [hrun] at hsh
    have hws' : ws' =
        stealApply c.tables ws (maxElemIdx WorkerState.PendingCompare ws) idle task :=
      ((Prod.mk.injEq _ _ _ _).mp hsh).2
    have htask : task = t := Option.some.inj (hbp'.symm.trans hbp)
    subst htask
    subst hws'
    refine ⟨?_, ?_, ?_, ?_, ?_⟩
    · rw [stealApply_getD_dst _ _ _ _ _ hne hidle]
      exact self_mem_mapInsert _ _
    · rw [stealApply_getD_src _ _ _ _ _ hne hsrc]
      intro s hs
      exact (mem_mapErase _ _ _ |>.mp hs).2
    · intro q
      rw [stealApply_getD_dst _ _ _ _ _ hne hidle]
      exact mem_assign_shard_true c.tables _ task.id.shard q
    · intro q
      rw [stealApply_getD_src _ _ _ _ _ hne hsrc]
      exact mem_assign_shard_false c.tables _ task.id.shard q
    · intro k hk1 hk2
      exact stealApply_getD_other _ _ _ _ _ _ hk2 hk1

/-- **C4** counterexample. The claim says a steal of task
`t = (table 0, shard 0)` moves exactly the TaskId `(0, 0)` between the
`shards` sets and leaves other tables' ownership unchanged. In the
two-table scenario the migration of `(0, 0)` *also* moves `(1, 0)`:
`assign_shard` iterates over every registered table (master.cc:115-125),
so worker 1 gains `(1, 0)` and worker 0 loses it. -/
theorem C4_counterexample :
    (steal_work ctxMig 1 wsMig 1 (1/2)).1 = true ∧
      tMig0.id = ⟨0, 0⟩ ∧
      (⟨1, 0⟩ : Taskid) ∈
        ((steal_work ctxMig 1 wsMig 1 (1/2)).2.getD 1 dummyWorker).shards ∧
      (⟨1, 0⟩ : Taskid) ∈ wMigSrc.shards ∧
      (⟨1, 0⟩ : Taskid) ∉
        ((steal_work ctxMig 1 wsMig 1 (1/2)).2.getD 0 dummyWorker).shards := by
  refine ⟨by rw [stealMig_runs], rfl, ?_, by decide, ?_⟩
  · rw [stealMig_runs]
    decide
  · rw [stealMig_runs]
    decide

/-- **C4** amended: when `steal_work` migrates the selected task `t`
between two *distinct* workers, it sets `t.stolen = true` and moves `t`
from the source work map to the destination work map, but shard ownership
moves for *every* registered table with `t.shard < numShards` — the TaskId
`(T, t.shard)` leaves `src.shards` and enters `dst.shards` for each such
table `T`, not only for `t.table`; workers other than the two involved are
unchanged. -/
theorem C4_steal_migration (c : Ctx) (nS : Int) (ws ws' : List WorkerState)
    (idle : Nat) (avgCT : ℚ) (t : TaskState)
    (hrun : steal_work c nS ws idle avgCT = (true, ws'))
    (hbp : (ws.getD (maxElemIdx WorkerState.PendingCompare ws)
      dummyWorker).best_pending = some t)
    (hne : maxElemIdx WorkerState.PendingCompare ws ≠ idle)
    (hidle : idle < ws.length)
    (hsrc : maxElemIdx WorkerState.PendingCompare ws < ws.length) :
    ({ t with stolen := true }) ∈ (ws'.getD idle dummyWorker).work ∧
    (∀ s ∈ (ws'.getD (maxElemIdx WorkerState.PendingCompare ws) dummyWorker).work,
      s.id ≠ t.id) ∧
    (∀ q : Taskid, q ∈ (ws'.getD idle dummyWorker).shards ↔
      q ∈ (ws.getD idle dummyWorker).shards ∨
        (q.shard = t.id.shard ∧ tableHasShard c.tables q.table t.id.shard = true)) ∧
    (∀ q : Taskid, q ∈ (ws'.getD (maxElemIdx WorkerState.PendingCompare ws)
        dummyWorker).shards ↔
      q ∈ (ws.getD (maxElemIdx WorkerState.PendingCompare ws) dummyWorker).shards ∧
        ¬(q.shard = t.id.shard ∧ tableHasShard c.tables q.table t.id.shard = true)) ∧
    (∀ k, k ≠ idle → k ≠ maxElemIdx WorkerState.PendingCompare ws →
      ws'.getD k dummyWorker = ws.getD k dummyWorker) :=
  steal_true_facts c nS ws ws' idle avgCT t hrun hbp hne hidle hsrc

/-- Witness for `C4_steal_migration` at the concrete two-table migration. -/
theorem C4_steal_migration_witness :
    ({ tMig0 with stolen := true }) ∈
      (((steal_work ctxMig 1 wsMig 1 (1/2)).2).getD 1 dummyWorker).work := by
  rw [stealMig_runs]
  exact (C4_steal_migration ctxMig 1 wsMig
    (stealApply ctxMig.tables wsMig 0 1 tMig0) 1 (1/2) tMig0
    stealMig_runs rfl (by decide) (by decide) (by decide)).1

/-- **C10** counterexample. The claim says a `true` return means the
complete migration happened — in particular shard ownership *moved between*
the `shards` sets. When the most-loaded worker is itself the idle
destination, `steal_work` returns `true` yet the insert-then-erase pair on
the same `shards` set leaves the stolen shard owned by *nobody*. -/
theorem C10_counterexample :
    (steal_work ctxSelf 3 [wSelf] 0 1).1 = true ∧
      (⟨0, 0⟩ : Taskid) ∈ wSelf.shards ∧
      (∀ w ∈ (steal_work ctxSelf 3 [wSelf] 0 1).2,
        (⟨0, 0⟩ : Taskid) ∉ w.shards) := by
  refine ⟨by rw [stealSelf_runs], by decide, ?_⟩
  rw [stealSelf_runs]
  decide

/-- **C10** amended: `steal_work` returning `false` leaves the workers
vector — every shards set, work map and `TaskState` — exactly unchanged;
returning `true`, with the most-loaded source distinct from the idle
destination, it performs the complete migration: stolen flag set, the task
moved into the destination work map and out of the source work map, the
shard ownership `(t.table, t.shard)` moved from source to destination. -/
theorem C10_steal_atomicity :
    (∀ (c : Ctx) (nS : Int) (ws : List WorkerState) (idle : Nat) (avgCT : ℚ),
        (steal_work c nS ws idle avgCT).1 = false →
        (steal_work c nS ws idle avgCT).2 = ws) ∧
    (∀ (c : Ctx) (nS : Int) (ws ws' : List WorkerState) (idle : Nat) (avgCT : ℚ)
        (t : TaskState),
        steal_work c nS ws idle avgCT = (true, ws') →
        (ws.getD (maxElemIdx WorkerState.PendingCompare ws)
          dummyWorker).best_pending = some t →
        maxElemIdx WorkerState.PendingCompare ws ≠ idle →
        idle < ws.length →
        maxElemIdx WorkerState.PendingCompare ws < ws.length →
        tableHasShard c.tables t.id.table t.id.shard = true →
        ({ t with stolen := true }) ∈ (ws'.getD idle dummyWorker).work ∧
        t.id ∈ (ws'.getD idle dummyWorker).shards ∧
        (∀ s ∈ (ws'.getD (maxElemIdx WorkerState.PendingCompare ws)
          dummyWorker).work, s.id ≠ t.id) ∧
        t.id ∉ (ws'.getD (maxElemIdx WorkerState.PendingCompare ws)
          dummyWorker).shards) := by
  constructor
  · intro c nS ws idle avgCT h
    rcases steal_work_shape c nS ws idle avgCT with hsh | ⟨task, _, _, hsh⟩
    · rw [hsh]
    · rw [hsh] at h
      cases h
  · intro c nS ws ws' idle avgCT t hrun hbp hne hidle hsrc htable
    obtain ⟨hw, hsw, hdst, hsrcs, _⟩ :=
      steal_true_facts c nS ws ws' idle avgCT t hrun hbp hne hidle hsrc
    refine ⟨hw, ?_, hsw, ?_⟩
    · exact (hdst t.id).mpr (Or.inr ⟨rfl, htable⟩)
    · intro hmem
      exact ((hsrcs t.id).mp hmem).2 ⟨rfl, htable⟩

/-- Witness for `C10_steal_atomicity`: its first part applied where the
flag is off, and its second part at the concrete two-table migration. -/
theorem C10_steal_atomicity_witness :
    (steal_work ⟨[(0, 1)], false, []⟩ 1 wsMig 1 1).2 = wsMig ∧
      tMig0.id ∈ (((steal_work ctxMig 1 wsMig 1 (1/2)).2).getD 1
        dummyWorker).shards := by
  refine ⟨C10_steal_atomicity.1 ⟨[(0, 1)], false, []⟩ 1 wsMig 1 1 rfl, ?_⟩
  rw [stealMig_runs]
  exact (C10_steal_atomicity.2 ctxMig 1 wsMig
    (stealApply ctxMig.tables wsMig 0 1 tMig0) 1 (1/2) tMig0
    stealMig_runs rfl (by decide) (by decide) (by decide) (by decide)).2.1

/-! ## Claim C7: the one-active-task-per-worker invariant -/

theorem getD_mem (l : List α) (n : Nat) (d : α) (h : n < l.length) :
    l.getD n d ∈ l := by
  induction l generalizing n with
  | nil => simp at h
  | cons a as ih =>
    cases n with
    | zero => exact List.mem_cons_self _ _
    | succ m => exact List.mem_cons_of_mem _ (ih m (by simpa using h))

theorem OneActive_updateAt (ws : List WorkerState) (n : Nat)
    (f : WorkerState → WorkerState) (hws : OneActive ws)
    (hf : ∀ w, w.num_active ≤ 1 → (f w).num_active ≤ 1) :
    OneActive (updateAt n f ws) := by
  intro w hw
  rcases mem_updateAt n f ws w hw with h | ⟨y, hy, hxy⟩
  · exact hws w h
  · rw [hxy]
    exact hf y (hws y hy)

theorem fresh_not_active (id : Taskid) (sz : Int) :
    (TaskState.fresh id sz).status ≠ Status.ACTIVE :=
  fun h => Status.noConfusion h

theorem assign_task_num_active_le (w : WorkerState) (s : TaskState)
    (hs : s.status ≠ Status.ACTIVE) :
    (w.assign_task s).num_active ≤ w.num_active := by
  show countActive (mapInsert w.work s) ≤ countActive w.work
  exact countActive_mapInsert_le w.work s hs

theorem assign_worker_OneActive (c : Ctx) (ws : List WorkerState)
    (table shard : Int) (i : Nat) (ws' : List WorkerState)
    (h : assign_worker c ws table shard = some (i, ws')) (hws : OneActive ws) :
    OneActive ws' := by
  unfold assign_worker at h
  cases hw : worker_for_shard ws table shard with
  | some j =>
    rw [hw] at h
    have h' := Option.some.inj h
    have hws'' : ws' = updateAt j
        (fun w => w.assign_task (TaskState.fresh ⟨table, shard⟩ 1)) ws :=
      (((Prod.mk.injEq _ _ _ _).mp h').2).symm
    subst hws''
    exact OneActive_updateAt ws j _ hws (fun w hw' =>
      le_trans (assign_task_num_active_le w _ (fresh_not_active _ _)) hw')
  | none =>
    rw [hw] at h
    cases hb : bestWorkerIdx c.dead ws with
    | none => rw [hb] at h; cases h
    | some b =>
      rw [hb] at h
      have h' := Option.some.inj h
      have hws'' : ws' = updateAt b (fun w =>
          (w.assign_shard c.tables shard true).assign_task
            (TaskState.fresh ⟨table, shard⟩ 1)) ws :=
        (((Prod.mk.injEq _ _ _ _).mp h').2).symm
      subst hws''
      refine OneActive_updateAt ws b _ hws (fun w hw' => ?_)
      exact le_trans
        (assign_task_num_active_le (w.assign_shard c.tables shard true) _
          (fresh_not_active _ _)) hw'

theorem assignWorkerList_OneActive (c : Ctx) (table : Int) :
    ∀ (shards : List Int) (ws ws' : List WorkerState),
      assignWorkerList c table shards ws = some ws' →
      OneActive ws → OneActive ws' := by
  intro shards
  induction shards with
  | nil =>
    intro ws ws' h hws
    injection h with h
    rw [← h]
    exact hws
  | cons s rest ih =>
    intro ws ws' h hws
    unfold assignWorkerList at h
    cases haw : assign_worker c ws table s with
    | none => rw [haw] at h; cases h
    | some pr =>
      obtain ⟨j, wsmid⟩ := pr
      rw [haw] at h
      exact ih wsmid ws' h (assign_worker_OneActive c ws table s j wsmid haw hws)

theorem assignTablesList_OneActive (c : Ctx) :
    ∀ (tables : List (Int × Int)) (ws ws' : List WorkerState),
      assignTablesList c tables ws = some ws' →
      OneActive ws → OneActive ws' := by
  intro tables
  induction tables with
  | nil =>
    intro ws ws' h hws
    injection h with h
    rw [← h]
    exact hws
  | cons pr rest ih =>
    intro ws ws' h hws
    obtain ⟨t, n⟩ := pr
    unfold assignTablesList at h
    cases hal : assignWorkerList c t (shardsOf n) ws with
    | none => rw [hal] at h; cases h
    | some wsmid =>
      rw [hal] at h
      exact ih wsmid ws' h
        (assignWorkerList_OneActive c t (shardsOf n) ws wsmid hal hws)

theorem assign_tasks_OneActive (c : Ctx) (tableId : Int) (shards : List Int)
    (ws ws' : List WorkerState)
    (h : assign_tasks c tableId shards ws = some ws') : OneActive ws' := by
  unfold assign_tasks at h
  refine assignWorkerList_OneActive c tableId shards _ ws' h ?_
  intro w hw
  rcases List.mem_map.mp hw with ⟨v, _, hv⟩
  rw [← hv]
  show countActive ([] : List TaskState) ≤ 1
  simp [countActive]

theorem dispatch_work_OneActive (tNow : ℚ) (ws : List WorkerState)
    (hws : OneActive ws) : OneActive (dispatch_work tNow ws).2 := by
  intro w hw
  rcases List.mem_map.mp hw with ⟨v, hv, hvw⟩
  rw [← hvw]
  exact dispatchOne_one_active tNow v (hws v hv)

theorem reapAt_OneActive (tNow : ℚ) (ws : List WorkerState) (i : Nat)
    (tid : Taskid) (ws' : List WorkerState) (h : reapAt tNow ws i tid = some ws')
    (hws : OneActive ws) : OneActive ws' := by
  unfold reapAt at h
  cases hw : ws[i]? with
  | none => rw [hw] at h; cases h
  | some w =>
    rw [hw] at h
    have h' : Option.map (fun w' => updateAt i (fun _ => w') ws)
        (reapApply tNow w tid) = some ws' := h
    cases hra : reapApply tNow w tid with
    | none => rw [hra] at h'; cases h'
    | some w1 =>
      rw [hra] at h'
      injection h' with h'
      subst h'
      refine OneActive_updateAt ws i (fun _ => w1) hws (fun _ _ => ?_)
      have hwm : w ∈ ws := by
        have hlt := lt_length_of_getElem? ws i w hw
        have hgd := getD_eq_of_getElem? ws i dummyWorker w hw
        rw [← hgd]
        exact getD_mem ws i dummyWorker hlt
      show countActive w1.work ≤ 1
      rw [reapApply_work tNow w tid w1 hra]
      exact le_trans (countActive_markFinishedFirst_le w.work tid)
        (by rw [← num_active_countActive]; exact hws w hwm)

theorem stealApply_OneActive (tables : List (Int × Int)) (ws : List WorkerState)
    (srcIdx idle : Nat) (task : TaskState) (htask : task.status ≠ Status.ACTIVE)
    (hws : OneActive ws) : OneActive (stealApply tables ws srcIdx idle task) := by
  unfold stealApply
  refine OneActive_updateAt _ idle _ (OneActive_updateAt _ srcIdx _
    (OneActive_updateAt _ srcIdx _ (OneActive_updateAt _ idle _
      (OneActive_updateAt _ srcIdx _ hws ?_) ?_) ?_) ?_) ?_
  · intro w hw
    show countActive (setStolenFirst w.work task.id) ≤ 1
    rw [countActive_setStolenFirst]
    exact hw
  · intro w hw
    exact hw
  · intro w hw
    exact hw
  · intro w hw
    show countActive (mapErase w.work task.id) ≤ 1
    exact le_trans (countActive_mapErase_le w.work task.id) hw
  · intro w hw
    show countActive (mapInsert w.work { task with stolen := true }) ≤ 1
    exact le_trans (countActive_mapInsert_le w.work _ htask) hw

theorem MStep_OneActive (c : Ctx) (ws ws' : List WorkerState)
    (h : MStep c ws ws') (hws : OneActive ws) : OneActive ws' := by
  cases h with
  | assignTables _ _ h' =>
    unfold assign_tables at h'
    exact assignTablesList_OneActive c c.tables ws ws' h' hws
  | assignTasks tableId shards _ _ h' =>
    exact assign_tasks_OneActive c tableId shards ws ws' h'
  | dispatch tNow _ => exact dispatch_work_OneActive tNow ws hws
  | reap tNow _ i tid _ h' => exact reapAt_OneActive tNow ws i tid ws' h' hws
  | steal nS _ idle avgCT hlt =>
    rcases steal_work_shape c nS ws idle avgCT with hsh | ⟨task, hbp, _, hsh⟩
    · rw [hsh]
      exact hws
    · rw [hsh]
      refine stealApply_OneActive c.tables ws _ idle task ?_ hws
      rw [(best_pending_status _ task hbp).2]
      exact fun hc => Status.noConfusion hc

/-- **C7**: for every worker at every point of the master loop the number
of `ACTIVE` tasks is 0 or 1. `dispatch_work` touches only workers with
`num_pending > 0 ∧ num_active == 0` and marks exactly the selected best
pending task `ACTIVE`; `set_finished` succeeds only on an `ACTIVE` task,
which it turns `FINISHED`; and the invariant `num_active ≤ 1` is preserved
by every master-loop step from any state satisfying it (in particular the
initial state, whose work maps are empty). -/
theorem C7_one_active (c : Ctx) :
    (∀ ws0 ws, Relation.ReflTransGen (MStep c) ws0 ws →
        OneActive ws0 → OneActive ws) ∧
    (∀ (tNow : ℚ) (w : WorkerState), ¬(0 < w.num_pending ∧ w.num_active = 0) →
        dispatchOne tNow w = w) ∧
    (∀ (tNow : ℚ) (w : WorkerState) (best : TaskState),
        0 < w.num_pending → w.num_active = 0 → w.best_pending = some best →
        (dispatchOne tNow w).work = markActiveFirst w.work best.id) ∧
    (∀ (w : WorkerState) (tid : Taskid) (w' : WorkerState),
        w.set_finished tid = some w' →
        (∃ t ∈ w.work, t.id = tid ∧ t.status = Status.ACTIVE) ∧
        w'.work = markFinishedFirst w.work tid) := by
  refine ⟨?_, ?_, ?_, set_finished_char⟩
  · intro ws0 ws hsteps h0
    induction hsteps with
    | refl => exact h0
    | tail _ hstep ih => exact MStep_OneActive c _ _ hstep ih
  · intro tNow w hng
    unfold dispatchOne
    rw [if_neg hng]
  · intro tNow w best hp ha hbp
    unfold dispatchOne WorkerState.get_next
    rw [if_pos ⟨hp, ha⟩, hbp]

/-- Witness for `C7_one_active`: after dispatching to the two-worker
migration scenario, every worker still has at most one `ACTIVE` task. -/
theorem C7_one_active_witness : OneActive (dispatch_work 0 wsMig).2 :=
  (C7_one_active ctxMig).1 wsMig (dispatch_work 0 wsMig).2
    (Relation.ReflTransGen.single (MStep.dispatch 0 wsMig))
    (by unfold OneActive; decide)

/-! ## Claim C8: stolen flags are monotone within an epoch -/

theorem dispatch_keeps_stolen (tNow : ℚ) (ws : List WorkerState) (tid : Taskid)
    (h : stolenIn ws tid) : stolenIn (dispatch_work tNow ws).2 tid := by
  obtain ⟨k, hk, t, ht, hid, hs⟩ := h
  refine ⟨k, ?_, ?_⟩
  · show k < (ws.map (dispatchOne tNow)).length
    simpa using hk
  show hasStolen tid ((ws.map (dispatchOne tNow)).getD k dummyWorker)
  rw [getD_map_lt (dispatchOne tNow) ws k dummyWorker dummyWorker hk]
  rcases dispatchOne_work_shape tNow (ws.getD k dummyWorker) with hsh | ⟨best, _, hsh⟩
  · exact ⟨t, hsh ▸ ht, hid, hs⟩
  · obtain ⟨t', ht', hid', hs'⟩ := markActiveFirst_keeps _ _ _ ht hs
    exact ⟨t', hsh ▸ ht', hid'.trans hid, hs'⟩

theorem reap_keeps_stolen (tNow : ℚ) (ws : List WorkerState) (i : Nat)
    (tid' : Taskid) (ws' : List WorkerState) (tid : Taskid)
    (h : reapAt tNow ws i tid' = some ws') (hst : stolenIn ws tid) :
    stolenIn ws' tid := by
  unfold reapAt at h
  cases hw : ws[i]? with
  | none => rw [hw] at h; cases h
  | some w =>
    rw [hw] at h
    have h' : Option.map (fun w' => updateAt i (fun _ => w') ws)
        (reapApply tNow w tid') = some ws' := h
    cases hra : reapApply tNow w tid' with
    | none => rw [hra] at h'; cases h'
    | some w1 =>
      rw [hra] at h'
      injection h' with h'
      subst h'
      obtain ⟨k, hk, t, ht, hid, hs⟩ := hst
      refine ⟨k, by simpa [updateAt_length] using hk, ?_⟩
      show hasStolen tid ((updateAt i (fun _ => w1) ws).getD k dummyWorker)
      rw [getD_updateAt i k _ ws dummyWorker hk]
      split_ifs with hik
      · have hgd : ws.getD k dummyWorker = w := by
          rw [← hik]
          exact getD_eq_of_getElem? ws i dummyWorker w hw
        have htw : t ∈ w.work := by rw [← hgd]; exact ht
        obtain ⟨t2, ht2, hid2, hs2⟩ := markFinishedFirst_keeps w.work tid' t htw hs
        refine ⟨t2, ?_, hid2.trans hid, hs2⟩
        show t2 ∈ w1.work
        rw [reapApply_work tNow w tid' w1 hra]
        exact ht2
      · exact ⟨t, ht, hid, hs⟩

theorem stealApply_keeps_stolen (tables : List (Int × Int))
    (ws : List WorkerState) (srcIdx idle : Nat) (task : TaskState)
    (tid : Taskid) (hidle : idle < ws.length) (hst : stolenIn ws tid) :
    stolenIn (stealApply tables ws srcIdx idle task) tid := by
  by_cases hid : tid = task.id
  · refine ⟨idle, by simpa [stealApply_length] using hidle, ?_⟩
    show hasStolen tid ((stealApply tables ws srcIdx idle task).getD idle dummyWorker)
    unfold stealApply
    rw [getD_updateAt_self _ _ _ _ (by simp only [updateAt_length]; exact hidle)]
    exact ⟨{ task with stolen := true }, self_mem_mapInsert _ _, by rw [hid], rfl⟩
  · obtain ⟨k, hk, hP0⟩ := hst
    refine ⟨k, by simpa [stealApply_length] using hk, ?_⟩
    show hasStolen tid ((stealApply tables ws srcIdx idle task).getD k dummyWorker)
    unfold stealApply
    have h1 := preserve_through_updateAt (hasStolen tid) srcIdx k
      (fun w => { w with work := setStolenFirst w.work task.id }) ws dummyWorker hk
      (fun w hw => by
        obtain ⟨t', ht', hid', hs'⟩ := hw
        obtain ⟨t2, ht2, hid2, hs2⟩ := setStolenFirst_keeps w.work task.id t' ht' hs'
        exact ⟨t2, ht2, hid2.trans hid', hs2⟩) hP0
    have h2 := preserve_through_updateAt (hasStolen tid) idle k
      (fun w => w.assign_shard tables task.id.shard true) _ dummyWorker
      (by simpa [updateAt_length] using hk) (fun w hw => hw) h1
    have h3 := preserve_through_updateAt (hasStolen tid) srcIdx k
      (fun w => w.assign_shard tables task.id.shard false) _ dummyWorker
      (by simpa [updateAt_length] using hk) (fun w hw => hw) h2
    have h4 := preserve_through_updateAt (hasStolen tid) srcIdx k
      (fun w => w.remove_task task.id) _ dummyWorker
      (by simpa [updateAt_length] using hk)
      (fun w hw => by
        obtain ⟨t', ht', hid', hs'⟩ := hw
        exact ⟨t', (mem_mapErase _ _ _).mpr ⟨ht', by rw [hid']; exact hid⟩,
          hid', hs'⟩) h3
    exact preserve_through_updateAt (hasStolen tid) idle k
      (fun w => w.assign_task { task with stolen := true }) _ dummyWorker
      (by simpa [updateAt_length] using hk)
      (fun w hw => by
        obtain ⟨t', ht', hid', hs'⟩ := hw
        exact ⟨t', mem_mapInsert_of_ne _ _ _ ht' (by rw [hid']; exact hid),
          hid', hs'⟩) h4

theorem steal_keeps_stolen (c : Ctx) (nS : Int) (ws : List WorkerState)
    (idle : Nat) (avgCT : ℚ) (tid : Taskid) (hidle : idle < ws.length)
    (hst : stolenIn ws tid) : stolenIn (steal_work c nS ws idle avgCT).2 tid := by
  rcases steal_work_shape c nS ws idle avgCT with hsh | ⟨task, _, _, hsh⟩
  · rw [hsh]
    exact hst
  · rw [hsh]
    exact stealApply_keeps_stolen c.tables ws _ idle task tid hidle hst

/-- **C8**: once a task's stolen flag is set it stays set across every
in-epoch step (dispatch, reap, steal), and a successful `steal_work` both
requires the selected task's flag to be clear beforehand (master.cc:341)
and leaves it set afterwards (master.cc:368) — so no task migrates twice
within an epoch. -/
theorem C8_steal_idempotence (c : Ctx) :
    (∀ ws ws', Relation.ReflTransGen (EpochStep c) ws ws' →
        ∀ tid, stolenIn ws tid → stolenIn ws' tid) ∧
    (∀ (nS : Int) (ws ws' : List WorkerState) (idle : Nat) (avgCT : ℚ)
        (t : TaskState),
        steal_work c nS ws idle avgCT = (true, ws') →
        (ws.getD (maxElemIdx WorkerState.PendingCompare ws)
          dummyWorker).best_pending = some t →
        idle < ws.length →
        t.stolen = false ∧ stolenIn ws' t.id) := by
  constructor
  · intro ws ws' hsteps tid hst
    induction hsteps with
    | refl => exact hst
    | tail _ hstep ih =>
      cases hstep with
      | dispatch tNow => exact dispatch_keeps_stolen tNow _ tid ih
      | reap tNow _ i tid2 _ h' =>
        exact reap_keeps_stolen tNow _ i tid2 _ tid h' ih
      | steal nS _ idle avgCT hlt =>
        exact steal_keeps_stolen c nS _ idle avgCT tid hlt ih
  · intro nS ws ws' idle avgCT t hrun hbp hidle
    rcases steal_work_shape c nS ws idle avgCT with hsh | ⟨task, hbp', hstol, hsh⟩
    · rw [hrun] at hsh
      exact absurd (congrArg Prod.fst hsh) (by simp)
    · rw [hrun] at hsh
      have hws' : ws' =
          stealApply c.tables ws (maxElemIdx WorkerState.PendingCompare ws)
            idle task :=
        ((Prod.mk.injEq _ _ _ _).mp hsh).2
      have htask : task = t := Option.some.inj (hbp'.symm.trans hbp)
      subst htask
      subst hws'
      refine ⟨hstol, ?_⟩
      refine ⟨idle, by simpa [stealApply_length] using hidle, ?_⟩
      show hasStolen task.id ((stealApply c.tables ws
        (maxElemIdx WorkerState.PendingCompare ws) idle task).getD idle dummyWorker)
      unfold stealApply
      rw [getD_updateAt_self _ _ _ _ (by simp only [updateAt_length]; exact hidle)]
      exact ⟨{ task with stolen := true }, self_mem_mapInsert _ _, rfl, rfl⟩

/-- Witness for `C8_steal_idempotence`: in the concrete two-table
migration the selected task was not stolen before the call and its id is
stolen in the result. -/
theorem C8_steal_idempotence_witness :
    tMig0.stolen = false ∧
      stolenIn (stealApply ctxMig.tables wsMig 0 1 tMig0) tMig0.id :=
  (C8_steal_idempotence ctxMig).2 1 wsMig
    (stealApply ctxMig.tables wsMig 0 1 tMig0) 1 (1/2) tMig0
    stealMig_runs rfl (by decide)

/-! ## Claim C5: `assign_worker` -/

theorem worker_for_shard_cons (w : WorkerState) (rest : List WorkerState)
    (table shard : Int) :
    worker_for_shard (w :: rest) table shard =
      if w.serves ⟨table, shard⟩ = true then some 0
      else (worker_for_shard rest table shard).map Nat.succ := rfl

theorem worker_for_shard_spec (table shard : Int) :
    ∀ ws : List WorkerState,
      (∀ i, worker_for_shard ws table shard = some i →
        i < ws.length ∧ (ws.getD i dummyWorker).serves ⟨table, shard⟩ = true ∧
        ∀ j < i, (ws.getD j dummyWorker).serves ⟨table, shard⟩ = false) ∧
      (worker_for_shard ws table shard = none →
        ∀ j < ws.length, (ws.getD j dummyWorker).serves ⟨table, shard⟩ = false) := by
  intro ws
  induction ws with
  | nil =>
    constructor
    · intro i h; cases h
    · intro _ j hj; simp at hj
  | cons w rest ih =>
    constructor
    · intro i h
      rw [worker_for_shard_cons] at h
      split_ifs at h with hserves
      · injection h with h
        subst h
        exact ⟨by simp, hserves, fun j hj => absurd hj (Nat.not_lt_zero j)⟩
      · cases hr : worker_for_shard rest table shard with
        | none => rw [hr] at h; cases h
        | some i' =>
          rw [hr] at h
          injection h with h
          subst h
          obtain ⟨hlen, hsrv, hless⟩ := ih.1 i' hr
          refine ⟨by simpa using Nat.succ_lt_succ hlen, hsrv, ?_⟩
          intro j hj
          cases j with
          | zero => exact Bool.of_not_eq_true hserves
          | succ j' => exact hless j' (by omega)
    · intro h j hj
      rw [worker_for_shard_cons] at h
      split_ifs at h with hserves
      cases j with
      | zero => exact Bool.of_not_eq_true hserves
      | succ j' =>
        cases hr : worker_for_shard rest table shard with
        | some i' => rw [hr] at h; cases h
        | none => exact ih.2 hr j' (by simpa using hj)

theorem mem_enumFrom_iff (ws : List WorkerState) :
    ∀ (n : Nat) (p : Nat × WorkerState),
      p ∈ ws.enumFrom n ↔
        ∃ k, k < ws.length ∧ p.1 = n + k ∧ p.2 = ws.getD k dummyWorker := by
  induction ws with
  | nil => intro n p; simp [List.enumFrom]
  | cons w rest ih =>
    intro n p
    obtain ⟨a, x⟩ := p
    have hcons : (w :: rest).enumFrom n = (n, w) :: rest.enumFrom (n + 1) := rfl
    rw [hcons, List.mem_cons, ih (n + 1)]
    constructor
    · rintro (h | ⟨k, hk, h1, h2⟩)
      · have ha : a = n := congrArg Prod.fst h
        have hx : x = w := congrArg Prod.snd h
        exact ⟨0, by simp, by simpa using ha, by simpa using hx⟩
      · exact ⟨k + 1, by simpa using hk, by simp at h1 ⊢; omega,
          by simpa using h2⟩
    · rintro ⟨k, hk, h1, h2⟩
      cases k with
      | zero =>
        left
        simp only [Nat.add_zero] at h1
        have hx : x = w := by simpa using h2
        rw [h1, hx]
      | succ m =>
        right
        refine ⟨m, by simpa using hk, by simp at h1 ⊢; omega, by simpa using h2⟩

theorem bestAux_cons (dead : List Int) (best : Option (Nat × Nat)) (i : Nat)
    (w : WorkerState) (rest : List WorkerState) :
    bestAux dead best i (w :: rest) =
      bestAux dead
        (if (WorkerState.alive dead w &&
            (match best with
             | none => true
             | some pr => decide (w.shards.length < pr.2))) = true then
          some (i, w.shards.length)
        else best) (i + 1) rest := rfl

theorem bestAux_spec (dead : List Int) :
    ∀ (rest : List WorkerState) (i : Nat) (best : Option (Nat × Nat)),
      (∀ pr : Nat × Nat, best = some pr → pr.1 < i) →
      (∀ b sz, bestAux dead best i rest = some (b, sz) →
        (best = some (b, sz) ∨
          ∃ w, (b, w) ∈ rest.enumFrom i ∧ sz = w.shards.length ∧
            WorkerState.alive dead w = true ∧
            ∀ pr : Nat × Nat, best = some pr → sz < pr.2) ∧
        (∀ p ∈ rest.enumFrom i, WorkerState.alive dead p.2 = true →
          sz ≤ p.2.shards.length ∧ (p.1 < b → sz < p.2.shards.length))) ∧
      (bestAux dead best i rest = none →
        best = none ∧
        ∀ p ∈ rest.enumFrom i, WorkerState.alive dead p.2 = false) := by
  intro rest
  induction rest with
  | nil =>
    intro i best hpre
    constructor
    · intro b sz h
      refine ⟨Or.inl h, ?_⟩
      intro p hp
      simp [List.enumFrom] at hp
    · intro h
      exact ⟨h, by intro p hp; simp [List.enumFrom] at hp⟩
  | cons w rest ih =>
    intro i best hpre
    have hEcons : (w :: rest).enumFrom i = (i, w) :: rest.enumFrom (i + 1) := rfl
    by_cases halive : WorkerState.alive dead w = true
    · cases best with
      | none =>
        have hstep : bestAux dead none i (w :: rest) =
            bestAux dead (some (i, w.shards.length)) (i + 1) rest := by
          simp [bestAux_cons, halive]
        have hpre' : ∀ pr : Nat × Nat, some (i, w.shards.length) = some pr →
            pr.1 < i + 1 := by
          intro pr hpr
          rw [← Option.some.inj hpr]
          omega
        obtain ⟨ihsome, ihnone⟩ := ih (i + 1) (some (i, w.shards.length)) hpre'
        constructor
        · intro b sz h
          rw [hstep] at h
          obtain ⟨h1, h2⟩ := ihsome b sz h
          constructor
          · refine Or.inr ?_
            rcases h1 with h1 | ⟨w', hw', hsz', halive', hcl⟩
            · have hb : i = b := congrArg Prod.fst (Option.some.inj h1)
              have hsz : w.shards.length = sz := congrArg Prod.snd (Option.some.inj h1)
              exact ⟨w, by rw [hEcons, ← hb]; exact List.mem_cons_self _ _,
                hsz.symm, halive, fun pr hpr => by cases hpr⟩
            · exact ⟨w', by rw [hEcons]; exact List.mem_cons_of_mem _ hw', hsz',
                halive', fun pr hpr => by cases hpr⟩
          · intro p hp hpalive
            rw [hEcons] at hp
            rcases List.mem_cons.mp hp with hp | hp
            · subst hp
              rcases h1 with h1 | ⟨w', _, hsz', _, hcl⟩
              · have hb : i = b := congrArg Prod.fst (Option.some.inj h1)
                have hsz : w.shards.length = sz :=
                  congrArg Prod.snd (Option.some.inj h1)
                exact ⟨le_of_eq hsz.symm, fun hlt => absurd (hb ▸ hlt) (lt_irrefl _)⟩
              · have hszlt : sz < w.shards.length := hcl (i, w.shards.length) rfl
                exact ⟨le_of_lt hszlt, fun _ => hszlt⟩
            · exact h2 p hp hpalive
        · intro h
          rw [hstep] at h
          obtain ⟨hcontra, _⟩ := ihnone h
          cases hcontra
      | some pr0 =>
        by_cases hlt : w.shards.length < pr0.2
        · have hstep : bestAux dead (some pr0) i (w :: rest) =
              bestAux dead (some (i, w.shards.length)) (i + 1) rest := by
            simp [bestAux_cons, halive, hlt]
          have hpre' : ∀ pr : Nat × Nat, some (i, w.shards.length) = some pr →
              pr.1 < i + 1 := by
            intro pr hpr
            rw [← Option.some.inj hpr]
            omega
          obtain ⟨ihsome, ihnone⟩ := ih (i + 1) (some (i, w.shards.length)) hpre'
          constructor
          · intro b sz h
            rw [hstep] at h
            obtain ⟨h1, h2⟩ := ihsome b sz h
            constructor
            · refine Or.inr ?_
              rcases h1 with h1 | ⟨w', hw', hsz', halive', hcl⟩
              · have hb : i = b := congrArg Prod.fst (Option.some.inj h1)
                have hsz : w.shards.length = sz :=
                  congrArg Prod.snd (Option.some.inj h1)
                refine ⟨w, by rw [hEcons, ← hb]; exact List.mem_cons_self _ _,
                  hsz.symm, halive, ?_⟩
                intro pr hpr
                rw [← Option.some.inj hpr, ← hsz]
                exact hlt
              · refine ⟨w', by rw [hEcons]; exact List.mem_cons_of_mem _ hw', hsz',
                  halive', ?_⟩
                intro pr hpr
                rw [← Option.some.inj hpr]
                exact lt_trans (hcl (i, w.shards.length) rfl) hlt
            · intro p hp hpalive
              rw [hEcons] at hp
              rcases List.mem_cons.mp hp with hp | hp
              · subst hp
                rcases h1 with h1 | ⟨w', _, hsz', _, hcl⟩
                · have hb : i = b := congrArg Prod.fst (Option.some.inj h1)
                  have hsz : w.shards.length = sz :=
                    congrArg Prod.snd (Option.some.inj h1)
                  exact ⟨le_of_eq hsz.symm,
                    fun hlt' => absurd (hb ▸ hlt') (lt_irrefl _)⟩
                · have hszlt : sz < w.shards.length := hcl (i, w.shards.length) rfl
                  exact ⟨le_of_lt hszlt, fun _ => hszlt⟩
              · exact h2 p hp hpalive
          · intro h
            rw [hstep] at h
            obtain ⟨hcontra, _⟩ := ihnone h
            cases hcontra
        · have hstep : bestAux dead (some pr0) i (w :: rest) =
              bestAux dead (some pr0) (i + 1) rest := by
            simp [bestAux_cons, halive, hlt]
          have hpre' : ∀ pr : Nat × Nat, some pr0 = some pr → pr.1 < i + 1 := by
            intro pr hpr
            rw [← Option.some.inj hpr]
            exact Nat.lt_succ_of_lt (hpre pr0 rfl)
          obtain ⟨ihsome, ihnone⟩ := ih (i + 1) (some pr0) hpre'
          constructor
          · intro b sz h
            rw [hstep] at h
            obtain ⟨h1, h2⟩ := ihsome b sz h
            constructor
            · rcases h1 with h1 | ⟨w', hw', hsz', halive', hcl⟩
              · exact Or.inl h1
              · exact Or.inr ⟨w', by rw [hEcons]; exact List.mem_cons_of_mem _ hw',
                  hsz', halive', hcl⟩
            · intro p hp hpalive
              rw [hEcons] at hp
              have hple : pr0.2 ≤ w.shards.length := le_of_not_lt hlt
              rcases List.mem_cons.mp hp with hp | hp
              · subst hp
                rcases h1 with h1 | ⟨w', _, hsz', _, hcl⟩
                · have hb : pr0.1 = b := congrArg Prod.fst
                    (Option.some.inj (by rw [h1] : some pr0 = some (b, sz)))
                  have hsz : pr0.2 = sz := congrArg Prod.snd
                    (Option.some.inj (by rw [h1] : some pr0 = some (b, sz)))
                  refine ⟨le_trans (le_of_eq hsz.symm) hple, fun hlt' => ?_⟩
                  have hbnd := hpre pr0 rfl
                  rw [← hb] at hlt'
                  omega
                · have hszlt : sz < pr0.2 := hcl pr0 rfl
                  exact ⟨le_of_lt (lt_of_lt_of_le hszlt hple),
                    fun _ => lt_of_lt_of_le hszlt hple⟩
              · exact h2 p hp hpalive
          · intro h
            rw [hstep] at h
            obtain ⟨hcontra, _⟩ := ihnone h
            cases hcontra
    · have hfalse : WorkerState.alive dead w = false := Bool.of_not_eq_true halive
      have hstep : bestAux dead best i (w :: rest) =
          bestAux dead best (i + 1) rest := by
        simp [bestAux_cons, hfalse]
      have hpre' : ∀ pr : Nat × Nat, best = some pr → pr.1 < i + 1 :=
        fun pr hpr => Nat.lt_succ_of_lt (hpre pr hpr)
      obtain ⟨ihsome, ihnone⟩ := ih (i + 1) best hpre'
      constructor
      · intro b sz h
        rw [hstep] at h
        obtain ⟨h1, h2⟩ := ihsome b sz h
        constructor
        · rcases h1 with h1 | ⟨w', hw', hsz', halive', hcl⟩
          · exact Or.inl h1
          · exact Or.inr ⟨w', by rw [hEcons]; exact List.mem_cons_of_mem _ hw',
              hsz', halive', hcl⟩
        · intro p hp hpalive
          rw [hEcons] at hp
          rcases List.mem_cons.mp hp with hp | hp
          · subst hp
            rw [hfalse] at hpalive
            cases hpalive
          · exact h2 p hp hpalive
      · intro h
        rw [hstep] at h
        obtain ⟨hnone, hall⟩ := ihnone h
        refine ⟨hnone, ?_⟩
        intro p hp
        rw [hEcons] at hp
        rcases List.mem_cons.mp hp with hp | hp
        · subst hp
          exact hfalse
        · exact hall p hp

theorem bestWorkerIdx_spec (dead : List Int) (ws : List WorkerState) :
    (∀ b, bestWorkerIdx dead ws = some b →
      b < ws.length ∧
      WorkerState.alive dead (ws.getD b dummyWorker) = true ∧
      (∀ j < ws.length, WorkerState.alive dead (ws.getD j dummyWorker) = true →
        (ws.getD b dummyWorker).shards.length ≤
          (ws.getD j dummyWorker).shards.length ∧
        (j < b → (ws.getD b dummyWorker).shards.length <
          (ws.getD j dummyWorker).shards.length))) ∧
    (bestWorkerIdx dead ws = none →
      ∀ j < ws.length, WorkerState.alive dead (ws.getD j dummyWorker) = false) := by
  have hspec := bestAux_spec dead ws 0 none (by intro pr h; cases h)
  constructor
  · intro b h
    unfold bestWorkerIdx at h
    cases ha : bestAux dead none 0 ws with
    | none => rw [ha] at h; cases h
    | some pr =>
      rw [ha] at h
      obtain ⟨bb, sz⟩ := pr
      injection h with h
      subst h
      obtain ⟨h1, h2⟩ := hspec.1 bb sz ha
      rcases h1 with h1 | ⟨w, hmem, hsz, halive, _⟩
      · cases h1
      · rw [mem_enumFrom_iff] at hmem
        obtain ⟨k, hk, hk1, hk2⟩ := hmem
        simp only [Nat.zero_add] at hk1
        have hbb : bb = k := hk1
        subst hbb
        have hw : ws.getD bb dummyWorker = w := hk2.symm
        refine ⟨hk, by rw [hw]; exact halive, ?_⟩
        intro j hj hjalive
        have hpmem : ((j, ws.getD j dummyWorker) : Nat × WorkerState) ∈
            ws.enumFrom 0 := by
          rw [mem_enumFrom_iff]
          exact ⟨j, hj, by simp, rfl⟩
        have := h2 (j, ws.getD j dummyWorker) hpmem hjalive
        rw [hw, ← hsz]
        exact this
  · intro h j hj
    unfold bestWorkerIdx at h
    cases ha : bestAux dead none 0 ws with
    | some pr => rw [ha] at h; cases h
    | none =>
      obtain ⟨_, hall⟩ := hspec.2 ha
      have hpmem : ((j, ws.getD j dummyWorker) : Nat × WorkerState) ∈
          ws.enumFrom 0 := by
        rw [mem_enumFrom_iff]
        exact ⟨j, hj, by simp, rfl⟩
      exact hall (j, ws.getD j dummyWorker) hpmem

/-- **C5** counterexample. The claim says `assign_worker` returns the
unique *alive* owner if one exists and otherwise transfers ownership to an
alive worker — so the chosen worker is always alive. With worker 0 dead
but still owning `(0, 0)` and worker 1 alive, `worker_for_shard` ignores
liveness (master.cc:261-269) and `assign_worker` returns the dead worker
0, assigning the fresh task to it. -/
theorem C5_counterexample :
    (assign_worker ctxC5 [wDeadOwner, wAliveC5] 0 0).map Prod.fst = some 0 ∧
      WorkerState.alive ctxC5.dead wDeadOwner = false ∧
      WorkerState.alive ctxC5.dead wAliveC5 = true ∧
      wDeadOwner.serves ⟨0, 0⟩ = true :=
  ⟨rfl, rfl, rfl, rfl⟩

/-- **C5** amended: `assign_worker(table, shard)` returns the *first*
worker (in id order) already owning `(table, shard)` — alive or not — if
any owner exists; otherwise it picks the alive worker with the fewest
shards, ties broken by lower id, aborting fatally when no alive worker
exists; in every case a fresh `TaskState` of size 1 is placed in the chosen
worker's work map. -/
theorem C5_assign_worker (c : Ctx) (ws : List WorkerState) (table shard : Int) :
    (∀ i ws', assign_worker c ws table shard = some (i, ws') →
      i < ws.length ∧
      TaskState.fresh ⟨table, shard⟩ 1 ∈ (ws'.getD i dummyWorker).work ∧
      (((ws.getD i dummyWorker).serves ⟨table, shard⟩ = true ∧
        ∀ j < i, (ws.getD j dummyWorker).serves ⟨table, shard⟩ = false) ∨
       ((∀ j < ws.length, (ws.getD j dummyWorker).serves ⟨table, shard⟩ = false) ∧
        WorkerState.alive c.dead (ws.getD i dummyWorker) = true ∧
        ∀ j < ws.length, WorkerState.alive c.dead (ws.getD j dummyWorker) = true →
          ((ws.getD i dummyWorker).shards.length ≤
            (ws.getD j dummyWorker).shards.length ∧
           (j < i → (ws.getD i dummyWorker).shards.length <
             (ws.getD j dummyWorker).shards.length))))) ∧
    (assign_worker c ws table shard = none →
      ∀ j < ws.length, WorkerState.alive c.dead (ws.getD j dummyWorker) = false) := by
  constructor
  · intro i ws' h
    unfold assign_worker at h
    cases hw : worker_for_shard ws table shard with
    | some j =>
      rw [hw] at h
      have h' := Option.some.inj h
      have hij : j = i := ((Prod.mk.injEq _ _ _ _).mp h').1
      have hws' : ws' = updateAt j
          (fun w => w.assign_task (TaskState.fresh ⟨table, shard⟩ 1)) ws :=
        (((Prod.mk.injEq _ _ _ _).mp h').2).symm
      subst hij
      obtain ⟨hlen, hsrv, hprev⟩ := (worker_for_shard_spec table shard ws).1 j hw
      refine ⟨hlen, ?_, Or.inl ⟨hsrv, hprev⟩⟩
      subst hws'
      rw [getD_updateAt_self _ _ _ _ hlen]
      exact self_mem_mapInsert _ _
    | none =>
      rw [hw] at h
      cases hb : bestWorkerIdx c.dead ws with
      | none => rw [hb] at h; cases h
      | some b =>
        rw [hb] at h
        have h' := Option.some.inj h
        have hbi : b = i := ((Prod.mk.injEq _ _ _ _).mp h').1
        have hws' : ws' = updateAt b (fun w =>
            (w.assign_shard c.tables shard true).assign_task
              (TaskState.fresh ⟨table, shard⟩ 1)) ws :=
          (((Prod.mk.injEq _ _ _ _).mp h').2).symm
        subst hbi
        obtain ⟨hlen, halive, hmin⟩ := (bestWorkerIdx_spec c.dead ws).1 b hb
        refine ⟨hlen, ?_, Or.inr ⟨(worker_for_shard_spec table shard ws).2 hw,
          halive, hmin⟩⟩
        subst hws'
        rw [getD_updateAt_self _ _ _ _ hlen]
        exact self_mem_mapInsert _ _
  · intro h
    unfold assign_worker at h
    cases hw : worker_for_shard ws table shard with
    | some j => rw [hw] at h; cases h
    | none =>
      rw [hw] at h
      cases hb : bestWorkerIdx c.dead ws with
      | some b => rw [hb] at h; cases h
      | none => exact (bestWorkerIdx_spec c.dead ws).2 hb

/-- Witness for `C5_assign_worker`: at the dead-owner input the fresh task
ends in the chosen (first-owner) worker's work map. -/
theorem C5_assign_worker_witness :
    TaskState.fresh ⟨0, 0⟩ 1 ∈
      (((updateAt 0 (fun w => w.assign_task (TaskState.fresh ⟨0, 0⟩ 1))
        [wDeadOwner, wAliveC5])).getD 0 dummyWorker).work :=
  ((C5_assign_worker ctxC5 [wDeadOwner, wAliveC5] 0 0).1 0
    (updateAt 0 (fun w => w.assign_task (TaskState.fresh ⟨0, 0⟩ 1))
      [wDeadOwner, wAliveC5]) rfl).2.1

/-! ## Claim C6: the cost policy of `steal_work` -/

theorem eta_foldl_sum (avgCT avgSize : ℚ) :
    ∀ (l : List TaskState) (a : ℚ),
      l.foldl (fun acc p => acc + max 1 ((p.size : ℚ) * avgCT / avgSize)) a =
        a + (l.map (fun p => max 1 ((p.size : ℚ) * avgCT / avgSize))).sum := by
  intro l
  induction l with
  | nil => intro a; simp
  | cons x xs ih =>
    intro a
    rw [List.foldl_cons, ih, List.map_cons, List.sum_cons]
    ring

/-- **C6** (confirmed). Past the flag, liveness, pending-nonempty and
not-already-stolen guards of `steal_work` (master.cc:320-343), and with the
run's table holding at least one shard, the cost block at master.cc:345-365
evaluates `average_size` to `1`, computes
`move_cost = max(1, 2·t.size·avg_completion_time)` for the chosen task `t`
and `eta = Σ_p max(1, p.size·avg_completion_time)` over the victim's
pending tasks, and the call migrates exactly when `eta > move_cost`,
returning `(false, ws)` otherwise. -/
theorem C6_cost_policy (c : Ctx) (numShards : Int) (ws : List WorkerState)
    (idle : Nat) (avgCT : ℚ) (p : TaskState) (ps : List TaskState)
    (hnS : 1 ≤ numShards)
    (hflag : c.work_stealing = true)
    (halive : WorkerState.alive c.dead (ws.getD idle dummyWorker) = true)
    (hpend : (ws.getD (maxElemIdx WorkerState.PendingCompare ws)
      dummyWorker).pending = p :: ps)
    (hstolen : (maxElem TaskState.WeightCompare p ps).stolen = false) :
    average_size numShards = 1 ∧
    move_cost (maxElem TaskState.WeightCompare p ps).size avgCT
        (average_size numShards) =
      max 1 (2 * ((maxElem TaskState.WeightCompare p ps).size : ℚ) * avgCT) ∧
    eta (p :: ps) avgCT (average_size numShards) =
      ((p :: ps).map (fun q => max 1 ((q.size : ℚ) * avgCT))).sum ∧
    steal_work c numShards ws idle avgCT =
      (if move_cost (maxElem TaskState.WeightCompare p ps).size avgCT
            (average_size numShards) <
          eta (p :: ps) avgCT (average_size numShards)
       then (true, stealApply c.tables ws
          (maxElemIdx WorkerState.PendingCompare ws) idle
          (maxElem TaskState.WeightCompare p ps))
       else (false, ws)) := by
  have havg : average_size numShards = 1 := average_size_eq_one numShards hnS
  refine ⟨havg, ?_, ?_, ?_⟩
  · rw [havg]
    unfold move_cost
    rw [div_one]
  · rw [havg]
    unfold eta
    rw [eta_foldl_sum avgCT 1 (p :: ps) 0, zero_add]
    simp only [div_one]
  · rw [steal_work_cost_branch c numShards ws idle avgCT p ps hflag halive
      hpend hstolen]
    by_cases hc : eta (p :: ps) avgCT (average_size numShards) ≤
        move_cost (maxElem TaskState.WeightCompare p ps).size avgCT
          (average_size numShards)
    · rw [if_pos hc, if_neg (not_lt.mpr hc)]
    · rw [if_neg hc, if_pos (lt_of_not_le hc)]

/-- Witness for `C6_cost_policy`: the concrete two-worker migration
scenario passes every guard, and the cost comparison decides the steal. -/
theorem C6_cost_policy_witness :
    average_size 1 = 1 ∧
    move_cost (maxElem TaskState.WeightCompare tMig0 [tMig1]).size (1/2)
        (average_size 1) =
      max 1 (2 * ((maxElem TaskState.WeightCompare tMig0 [tMig1]).size : ℚ)
        * (1/2)) ∧
    eta [tMig0, tMig1] (1/2) (average_size 1) =
      (([tMig0, tMig1]).map (fun q => max 1 ((q.size : ℚ) * (1/2)))).sum ∧
    steal_work ctxMig 1 wsMig 1 (1/2) =
      (if move_cost (maxElem TaskState.WeightCompare tMig0 [tMig1]).size (1/2)
            (average_size 1) <
          eta [tMig0, tMig1] (1/2) (average_size 1)
       then (true, stealApply ctxMig.tables wsMig
          (maxElemIdx WorkerState.PendingCompare wsMig) 1
          (maxElem TaskState.WeightCompare tMig0 [tMig1]))
       else (false, wsMig)) :=
  C6_cost_policy ctxMig 1 wsMig 1 (1/2) tMig0 [tMig1] (by norm_num)
    rfl rfl rfl rfl

/-! ## Claim C9: `Master::run` precondition aborts -/

/-- **C9** (confirmed). If the descriptor names a null table, an
unregistered kernel class, or a method its kernel does not expose, then
`Master::run` aborts at the corresponding `CHECK` (master.cc:480-482):
`masterRun` returns an error, so no `RUN_KERNEL` message is emitted and
no worker state is produced. -/
theorem C9_run_precondition_abort (c : Ctx) (reg : List (String × KernelInfo))
    (st : MasterSt) (r : RunDescriptor) (tNow : ℚ)
    (hbad : r.table = none ∨ kernelLookup reg r.kernel = none ∨
      ∀ k, kernelLookup reg r.kernel = some k → has_method k r.method = false) :
    ∃ e, masterRun c reg st r tNow = Except.error e := by
  unfold masterRun
  by_cases hfin : st.currentRunShards ≠ st.finished
  · rw [if_pos hfin]
    exact ⟨_, rfl⟩
  · rw [if_neg hfin]
    rcases hbad with hb | hb | hb
    · rw [hb]
      exact ⟨_, rfl⟩
    · cases ht : r.table with
      | none => exact ⟨_, rfl⟩
      | some tid =>
        rw [hb]
        exact ⟨_, rfl⟩
    · cases ht : r.table with
      | none => exact ⟨_, rfl⟩
      | some tid =>
        cases hk : kernelLookup reg r.kernel with
        | none => exact ⟨_, rfl⟩
        | some k =>
          refine ⟨"invalid method", ?_⟩
          simp [hb k hk]

/-- Witness for `C9_run_precondition_abort`: running a descriptor naming
the unregistered kernel class `Missing` against a registry holding only
`PRKernel` aborts. -/
theorem C9_run_precondition_abort_witness :
    ∃ e, masterRun ctxMig regC9 stC9 rBadKernel 0 = Except.error e :=
  C9_run_precondition_abort ctxMig regC9 stC9 rBadKernel 0
    (Or.inr (Or.inl rfl))

end Piccolo
